import Mathlib

/-!
# Disjoint Set Union (`dsu::DSU`, `include/dsu/dsu.hpp`)

A shallow embedding of the class `dsu::DSU` and a verification of its contract.

* The three `std::vector`s are lists of naturals; `std::size_t` arithmetic is taken
  modulo `2 ^ 64` and the `std::uint8_t` rank increment modulo `2 ^ 8`.
* Every member function that may mutate the store returns its outcome together with
  the store after the call.  The store is returned on failure as well, because a C++
  exception leaves behind whatever writes were performed before it was thrown.
* An unchecked `operator[]` is modelled as an optional read or write: an index outside
  the vector yields the fault `out_of_bounds` (undefined behaviour in C++).
* The recursion of `find` is driven by a fuel counter; running out of fuel yields the
  fault `no_fuel`.  `find` supplies `n + 1` units, which is enough for every parent
  chain that ends in a root or in an invalid index; only a cyclic parent array, on
  which the C++ recursion does not return, exhausts it.
-/

namespace dsu

/-! ## Data model -/

/-- Width of `std::size_t`. -/
def SIZE_MOD : Nat := 2 ^ 64

/-- Width of `std::uint8_t`, the element type of `rank_`. -/
def RANK_MOD : Nat := 2 ^ 8

/-- Ways in which a call can fail to return a value. -/
inductive Fault where
  /-- The exception `std::out_of_range` thrown by `require_in_range`. -/
  | out_of_range
  /-- An unchecked `operator[]` outside its vector. -/
  | out_of_bounds
  /-- The recursion did not finish within the fuel supplied. -/
  | no_fuel
  deriving DecidableEq, Repr

/-- Result of a call: a returned value or a fault. -/
inductive Outcome (α : Type) where
  | ok (v : α)
  | fail (e : Fault)
  deriving DecidableEq, Repr

/-- The private members of `dsu::DSU`. -/
structure DSU where
  parent_ : List Nat
  rank_ : List Nat
  size_ : List Nat
  components_ : Nat
  deriving DecidableEq, Repr

/-- Unchecked `v[i] = x`: `none` when `i` is outside the vector. -/
def writeAt (v : List Nat) (i x : Nat) : Option (List Nat) :=
  if i < v.length then some (v.set i x) else none

/-- `std::vector::resize(n)`: keep the first `n` elements, pad with zeros. -/
def resize (v : List Nat) (n : Nat) : List Nat :=
  v.take n ++ List.replicate (n - v.length) 0

/-- `std::vector::assign(n, x)`. -/
def assign (n x : Nat) : List Nat :=
  List.replicate n x

namespace DSU

/-- `DSU() = default`: all vectors empty, `components_{0}`. -/
def empty : DSU :=
  { parent_ := [], rank_ := [], size_ := [], components_ := 0 }

/-- `void reset(std::size_t n)`. -/
def reset (s : DSU) (n : Nat) : DSU :=
  let parent := resize s.parent_ n
  let rank := assign n 0
  let size := assign n 1
  { parent_ := (List.range n).foldl (fun p i => p.set i i) parent
    rank_ := rank
    size_ := size
    components_ := n }

/-- `explicit DSU(std::size_t n)`: `reset(n)` on the default-initialised members. -/
def new (n : Nat) : DSU :=
  reset empty n

/-- `std::size_t n() const`. -/
def n (s : DSU) : Nat :=
  s.parent_.length

/-- `std::size_t components() const`. -/
def components (s : DSU) : Nat :=
  s.components_

/-- `void require_in_range(std::size_t x) const`. -/
def require_in_range (s : DSU) (x : Nat) : Outcome Unit :=
  if x ≥ s.parent_.length then .fail .out_of_range else .ok ()

/-- `void require_in_range_const(std::size_t x) const`. -/
def require_in_range_const (s : DSU) (x : Nat) : Outcome Unit :=
  if x ≥ s.parent_.length then .fail .out_of_range else .ok ()

/-- The recursive `std::size_t find(std::size_t x)` with a bound on the recursion
depth. -/
def findFuel : Nat → DSU → Nat → Outcome Nat × DSU
  | 0, s, _ => (.fail .no_fuel, s)
  | fuel + 1, s, x =>
    match require_in_range s x with
    | .fail e => (.fail e, s)
    | .ok _ =>
      match s.parent_[x]? with
      | none => (.fail .out_of_bounds, s)
      | some p =>
        if p = x then (.ok x, s)
        else
          -- parent_[x] = find(parent_[x]);
          match findFuel fuel s p with
          | (.fail e, s1) => (.fail e, s1)
          | (.ok r, s1) =>
            match writeAt s1.parent_ x r with
            | none => (.fail .out_of_bounds, s1)
            | some ps =>
              -- return parent_[x];
              match ps[x]? with
              | none => (.fail .out_of_bounds, { s1 with parent_ := ps })
              | some v => (.ok v, { s1 with parent_ := ps })

/-- `std::size_t find(std::size_t x)`. -/
def find (s : DSU) (x : Nat) : Outcome Nat × DSU :=
  findFuel (s.parent_.length + 1) s x

/-- `bool same(std::size_t a, std::size_t b)`, operands evaluated left to right. -/
def same (s : DSU) (a b : Nat) : Outcome Bool × DSU :=
  match find s a with
  | (.fail e, s1) => (.fail e, s1)
  | (.ok ra, s1) =>
    match find s1 b with
    | (.fail e, s2) => (.fail e, s2)
    | (.ok rb, s2) => (.ok (decide (ra = rb)), s2)

/-- `bool same(std::size_t a, std::size_t b)` with the operands of
`find(a) == find(b)` evaluated right to left, the other order the language allows. -/
def same_rtl (s : DSU) (a b : Nat) : Outcome Bool × DSU :=
  match find s b with
  | (.fail e, s1) => (.fail e, s1)
  | (.ok rb, s1) =>
    match find s1 a with
    | (.fail e, s2) => (.fail e, s2)
    | (.ok ra, s2) => (.ok (decide (ra = rb)), s2)

/-- The part of `unite` after the early return: the two roots `ra ≠ rb` are linked.
`none` stands for an unchecked access outside a vector. -/
def link (s : DSU) (ra rb : Nat) : Option DSU :=
  match s.rank_[ra]?, s.rank_[rb]? with
  | some ka, some kb =>
    -- if (rank_[ra] < rank_[rb]) std::swap(ra, rb);
    let ra1 := if ka < kb then rb else ra
    let rb1 := if ka < kb then ra else rb
    -- parent_[rb] = ra;
    match writeAt s.parent_ rb1 ra1 with
    | none => none
    | some parent =>
      -- size_[ra] += size_[rb];
      match s.size_[ra1]?, s.size_[rb1]? with
      | some sa, some sb =>
        let size := s.size_.set ra1 ((sa + sb) % SIZE_MOD)
        -- if (rank_[ra] == rank_[rb]) ++rank_[ra];
        match s.rank_[ra1]?, s.rank_[rb1]? with
        | some ka1, some kb1 =>
          let rank := if ka1 = kb1 then s.rank_.set ra1 ((ka1 + 1) % RANK_MOD) else s.rank_
          -- if (components_ > 0) --components_;
          let components := if s.components_ > 0 then s.components_ - 1 else s.components_
          some { parent_ := parent, rank_ := rank, size_ := size, components_ := components }
        | _, _ => none
      | _, _ => none
  | _, _ => none

/-- `bool unite(std::size_t a, std::size_t b)`. -/
def unite (s : DSU) (a b : Nat) : Outcome Bool × DSU :=
  match find s a with
  | (.fail e, s1) => (.fail e, s1)
  | (.ok ra, s1) =>
    match find s1 b with
    | (.fail e, s2) => (.fail e, s2)
    | (.ok rb, s2) =>
      if ra = rb then (.ok false, s2)
      else
        match link s2 ra rb with
        | none => (.fail .out_of_bounds, s2)
        | some s3 => (.ok true, s3)

/-- `std::size_t component_size(std::size_t x)`. -/
def component_size (s : DSU) (x : Nat) : Outcome Nat × DSU :=
  match find s x with
  | (.fail e, s1) => (.fail e, s1)
  | (.ok r, s1) =>
    match s1.size_[r]? with
    | none => (.fail .out_of_bounds, s1)
    | some c => (.ok c, s1)

/-- `bool is_root(std::size_t x) const`. -/
def is_root (s : DSU) (x : Nat) : Outcome Bool :=
  match require_in_range_const s x with
  | .fail e => .fail e
  | .ok _ =>
    match s.parent_[x]? with
    | none => .fail .out_of_bounds
    | some p => .ok (decide (p = x))

end DSU

/-! ## Specification vocabulary -/

/-- Parent link of `i`; indices outside the store count as their own parent. -/
def par (s : DSU) (i : Nat) : Nat := s.parent_.getD i i

/-- Stored rank of `i`. -/
def rnk (s : DSU) (i : Nat) : Nat := s.rank_.getD i 0

/-- Stored size of `i`. -/
def siz (s : DSU) (i : Nat) : Nat := s.size_.getD i 0

/-- The nodes visited when following parent links from `x` until a self-loop, at most
`fuel` of them. -/
def walk (s : DSU) : Nat → Nat → List Nat
  | 0, _ => []
  | fuel + 1, x => if par s x = x then [x] else x :: walk s fuel (par s x)

/-- The well-formedness invariant of a store, relative to a representative function. -/
structure Inv (s : DSU) (rep : Nat → Nat) : Prop where
  n_lt : s.parent_.length < SIZE_MOD
  rank_len : s.rank_.length = s.parent_.length
  size_len : s.size_.length = s.parent_.length
  par_lt : ∀ i, i < s.parent_.length → par s i < s.parent_.length
  rep_lt : ∀ i, i < s.parent_.length → rep i < s.parent_.length
  rep_ge : ∀ i, s.parent_.length ≤ i → rep i = i
  rep_par : ∀ i, rep (par s i) = rep i
  rep_root : ∀ i, par s i = i → rep i = i
  root_rep : ∀ i, par s (rep i) = rep i
  rank_lt : ∀ i, par s i ≠ i → rnk s i < rnk s (par s i)
  rank_size : ∀ i, i < s.parent_.length → 2 ^ rnk s i ≤ siz s (rep i)
  size_card : ∀ r, r < s.parent_.length → par s r = r →
    siz s r = ((Finset.range s.parent_.length).filter (fun y => rep y = r)).card
  comps : s.components_ = ((Finset.range s.parent_.length).filter (fun i => par s i = i)).card

/-- The store of `n` singletons. -/
def fresh (n : Nat) : DSU :=
  { parent_ := List.range n, rank_ := List.replicate n 0, size_ := List.replicate n 1,
    components_ := n }

/-- The root that stays a root when `ra` and `rb` are linked: `rb` when its rank is
strictly larger, `ra` otherwise. -/
def winner (s : DSU) (ra rb : Nat) : Nat := if rnk s ra < rnk s rb then rb else ra

/-- The root that is attached below the winner. -/
def loser (s : DSU) (ra rb : Nat) : Nat := if rnk s ra < rnk s rb then ra else rb

/-- The store after attaching the root `lo` below the root `hi`. -/
def linked (s : DSU) (hi lo : Nat) : DSU :=
  { parent_ := s.parent_.set lo hi
    rank_ := if rnk s hi = rnk s lo then s.rank_.set hi ((rnk s hi + 1) % RANK_MOD)
      else s.rank_
    size_ := s.size_.set hi ((siz s hi + siz s lo) % SIZE_MOD)
    components_ := if s.components_ > 0 then s.components_ - 1 else s.components_ }

/-- Representatives after the class of `lo` has been merged into the class of `hi`. -/
def relabel (rep : Nat → Nat) (hi lo : Nat) : Nat → Nat :=
  fun y => if rep y = lo then hi else rep y

/-- Frame condition of a query: `t` differs from `s` at most in parent links, and every
valid index resolves to the same root in both. -/
def Framed (s t : DSU) : Prop :=
  t.rank_ = s.rank_ ∧ t.size_ = s.size_ ∧ t.components = s.components ∧ t.n = s.n ∧
    ∀ y, y < s.n → ∃ r, (s.find y).1 = .ok r ∧ (t.find y).1 = .ok r

/-- Rank bounds height: the rank grows strictly along every parent link that is not a
self-loop, and every valid index reaches its root `r` in exactly `k <= rank[r]` parent
hops. -/
def RankBoundsHeight (s : DSU) : Prop :=
  (∀ x p, x < s.n → s.parent_[x]? = some p → p ≠ x → rnk s x < rnk s p) ∧
  ∀ x, x < s.n → ∃ r k, (s.find x).1 = .ok r ∧ (par s)^[k] x = r ∧ par s r = r ∧
    (∀ j, j < k → par s ((par s)^[j] x) ≠ (par s)^[j] x) ∧ k ≤ rnk s r

/-- First pass of the iterative two-pass `find` described in the design notes of the
specification: walk parent links from `x` to the root.  `none` when the walk leaves the
array or does not end within the budget. -/
def rootPass (p : List Nat) : Nat → Nat → Option Nat
  | 0, _ => none
  | fuel + 1, x =>
    match p[x]? with
    | none => none
    | some q => if q = x then some x else rootPass p fuel q

/-- Second pass of the iterative two-pass `find`: walk the same path again, setting the
parent of each visited node to the root `r`. -/
def compressPass (r : Nat) : Nat → List Nat → Nat → List Nat
  | 0, p, _ => p
  | fuel + 1, p, x =>
    if x = r then p
    else
      match p[x]? with
      | none => p
      | some q => compressPass r fuel (p.set x r) q

/-- The iterative two-pass `find` of the specification: range check, first pass to the
root, second pass rewriting the parents. -/
def find_two_pass (s : DSU) (x : Nat) : Outcome Nat × DSU :=
  match s.require_in_range x with
  | .fail e => (.fail e, s)
  | .ok _ =>
    match rootPass s.parent_ (s.parent_.length + 1) x with
    | none => (.fail .no_fuel, s)
    | some r =>
      (.ok r, { s with parent_ := compressPass r (s.parent_.length + 1) s.parent_ x })

/-- A call of a public member function. -/
inductive Call where
  | reset (n : Nat)
  | find (x : Nat)
  | same (a b : Nat)
  | unite (a b : Nat)
  | component_size (x : Nat)
  | is_root (x : Nat)
  deriving DecidableEq, Repr

/-- The store left behind by a call, whether it returns or throws. -/
def exec (s : DSU) : Call → DSU
  | .reset n => s.reset n
  | .find x => (s.find x).2
  | .same a b => (s.same a b).2
  | .unite a b => (s.unite a b).2
  | .component_size x => (s.component_size x).2
  | .is_root _ => s

/-- The store after a sequence of calls. -/
def run (s : DSU) (cs : List Call) : DSU :=
  cs.foldl exec s

/-- The argument of `reset` fits `std::size_t`; index arguments are unconstrained. -/
def Call.representable : Call → Prop
  | .reset n => n < SIZE_MOD
  | _ => True

/-- A call other than `reset` all of whose index arguments are below `n`. -/
def Call.valid (n : Nat) : Call → Prop
  | .reset _ => False
  | .find x => x < n
  | .same a b => a < n ∧ b < n
  | .unite a b => a < n ∧ b < n
  | .component_size x => x < n
  | .is_root x => x < n

/-- The pairs passed to `unite` in a sequence of calls, in order. -/
def edges : List Call → List (Nat × Nat)
  | [] => []
  | .unite a b :: cs => (a, b) :: edges cs
  | _ :: cs => edges cs

/-- Scanning an edge list as in `examples/cycle_detection.cpp`: `same(u, v)` is
queried before `unite(u, v)`. -/
def scan : List (Nat × Nat) → List Call
  | [] => []
  | (u, v) :: es => .same u v :: .unite u v :: scan es

/-- Connectivity in the undirected graph with the given edges: the equivalence closure
of the edge relation. -/
def Connected (es : List (Nat × Nat)) (x y : Nat) : Prop :=
  Relation.EqvGen (fun u v => (u, v) ∈ es) x y

/-- Stores reachable from `reset(n)` by calls of the public member functions, failed
calls included. -/
inductive Reachable : DSU → Prop
  | reset (s0 : DSU) (n : Nat) (hn : n < SIZE_MOD) : Reachable (s0.reset n)
  | call (s : DSU) (c : Call) (h : Reachable s) (hc : c.representable) :
      Reachable (exec s c)

/-! ## `reset` -/

theorem resize_length (v : List Nat) (n : Nat) : (resize v n).length = n := by
  simp [resize]; omega

theorem foldl_set_getElem? (k : Nat) : ∀ (l : List Nat), k ≤ l.length → ∀ i,
    ((List.range k).foldl (fun p i => p.set i i) l)[i]? = if i < k then some i else l[i]? := by
  induction k with
  | zero => intro l _ i; simp
  | succ k ih =>
    intro l hl i
    rw [List.range_succ, List.foldl_append]
    simp only [List.foldl_cons, List.foldl_nil]
    have hlen : ∀ m (l : List Nat),
        ((List.range m).foldl (fun p i => p.set i i) l).length = l.length := by
      intro m
      induction m with
      | zero => intro l; simp
      | succ m ihm =>
        intro l
        rw [List.range_succ, List.foldl_append]
        simp [ihm]
    rw [List.getElem?_set]
    by_cases hik : k = i
    · subst hik
      simp [hlen]
      omega
    · rw [if_neg hik, ih l (by omega) i]
      by_cases h1 : i < k
      · have : i < k + 1 := by omega
        simp [h1, this]
      · have : ¬ i < k + 1 := by omega
        simp [h1, this]

theorem reset_parent (s : DSU) (n : Nat) : (s.reset n).parent_ = List.range n := by
  apply List.ext_getElem?
  intro i
  show ((List.range n).foldl (fun p i => p.set i i) (resize s.parent_ n))[i]? = _
  rw [foldl_set_getElem? n _ (by rw [resize_length])]
  by_cases h : i < n
  · simp [h]
  · simp [h]
    rw [List.getElem?_eq_none]
    · simp at h; simpa using h
    · rw [resize_length]; omega

theorem reset_eq (s : DSU) (n : Nat) : s.reset n = fresh n := by
  have h := reset_parent s n
  cases hs : s.reset n with
  | mk p r z c =>
    rw [hs] at h
    simp only [DSU.reset, assign] at hs
    cases hs
    simp at h
    simp [fresh, h]

theorem par_fresh (n i : Nat) : par (fresh n) i = i := by
  by_cases h : i < n
  · simp [par, fresh, List.getD_eq_getElem?_getD, h]
  · simp [par, fresh, List.getD_eq_getElem?_getD,
      List.getElem?_eq_none (l := List.range n) (by simpa using h)]

theorem siz_fresh (n i : Nat) (hi : i < n) : siz (fresh n) i = 1 := by
  simp [siz, fresh, List.getD_eq_getElem?_getD, hi]

theorem rnk_fresh (n i : Nat) : rnk (fresh n) i = 0 := by
  by_cases hi : i < n
  · simp [rnk, fresh, List.getD_eq_getElem?_getD, hi]
  · simp [rnk, fresh, List.getD_eq_getElem?_getD, hi]

theorem Inv_fresh (n : Nat) (hn : n < SIZE_MOD) : Inv (fresh n) id := by
  have hl : (fresh n).parent_.length = n := by simp [fresh]
  constructor
  · rw [hl]; exact hn
  · simp [fresh]
  · simp [fresh]
  · intro i hi; rw [par_fresh]; exact hi
  · intro i hi; exact hi
  · intro i _; rfl
  · intro i; rw [par_fresh]
  · intro i _; rfl
  · intro i; rw [par_fresh]
  · intro i hi; exact absurd (par_fresh n i) hi
  · intro i hi
    rw [hl] at hi
    rw [rnk_fresh, id, siz_fresh n i hi]; simp
  · intro r hr1 _
    rw [hl] at hr1 ⊢
    rw [siz_fresh n r hr1]
    simp only [id]
    rw [Finset.filter_eq' (Finset.range n) r]
    simp [hr1]
  · rw [hl]
    simp only [par_fresh]
    simp [fresh]

/-! ## `find` -/

theorem getElem?_par (s : DSU) (i : Nat) (hi : i < s.parent_.length) :
    s.parent_[i]? = some (par s i) := by
  simp [par, List.getD_eq_getElem?_getD, hi]

theorem par_of_ge (s : DSU) (i : Nat) (hi : s.parent_.length ≤ i) : par s i = i := by
  simp [par, List.getD_eq_getElem?_getD, List.getElem?_eq_none hi]

theorem findFuel_root (k : Nat) (s : DSU) (x : Nat) (hx : x < s.parent_.length)
    (hr : par s x = x) : DSU.findFuel (k + 1) s x = (.ok x, s) := by
  have h1 : ¬ (x ≥ s.parent_.length) := by omega
  simp [DSU.findFuel, DSU.require_in_range, h1, getElem?_par s x hx, hr]

theorem findFuel_step (k : Nat) (s s1 : DSU) (x r : Nat) (hx : x < s.parent_.length)
    (hr : par s x ≠ x) (hrec : DSU.findFuel k s (par s x) = (.ok r, s1))
    (hlen : s1.parent_.length = s.parent_.length) :
    DSU.findFuel (k + 1) s x = (.ok r, { s1 with parent_ := s1.parent_.set x r }) := by
  have h1 : ¬ (x ≥ s.parent_.length) := by omega
  have h2 : x < s1.parent_.length := by omega
  simp [DSU.findFuel, DSU.require_in_range, h1, getElem?_par s x hx, hr, hrec, writeAt, h2]

theorem findFuel_out_of_range (k : Nat) (s : DSU) (x : Nat) (hx : s.parent_.length ≤ x) :
    DSU.findFuel (k + 1) s x = (.fail .out_of_range, s) := by
  simp [DSU.findFuel, DSU.require_in_range, hx]

/-- A result obtained with some fuel is obtained with any larger fuel. -/
theorem findFuel_succ : ∀ k (s : DSU) (x : Nat) (o : Outcome Nat) (t : DSU),
    DSU.findFuel k s x = (o, t) → o ≠ .fail .no_fuel → DSU.findFuel (k + 1) s x = (o, t) := by
  intro k
  induction k with
  | zero =>
    intro s x o t h hne
    simp only [DSU.findFuel, Prod.mk.injEq] at h
    exact absurd h.1.symm hne
  | succ k ih =>
    intro s x o t h hne
    rw [DSU.findFuel] at h ⊢
    cases hr : DSU.require_in_range s x with
    | fail e => simp only [hr] at h ⊢; exact h
    | ok u =>
      simp only [hr] at h ⊢
      cases hp : s.parent_[x]? with
      | none => simp only [hp] at h ⊢; exact h
      | some p =>
        simp only [hp] at h ⊢
        by_cases hpx : p = x
        · simp only [hpx, if_true] at h ⊢; exact h
        · simp only [hpx, if_false] at h ⊢
          cases hrec : DSU.findFuel k s p with
          | mk o1 s1 =>
            have hne1 : o1 ≠ .fail .no_fuel := by
              intro e
              rw [hrec, e] at h
              simp only [Prod.mk.injEq] at h
              exact hne h.1.symm
            rw [ih s p o1 s1 hrec hne1]
            rw [hrec] at h
            exact h

theorem findFuel_mono (k j : Nat) (s : DSU) (x : Nat) (o : Outcome Nat) (t : DSU)
    (h : DSU.findFuel k s x = (o, t)) (hne : o ≠ .fail .no_fuel) :
    DSU.findFuel (k + j) s x = (o, t) := by
  induction j with
  | zero => exact h
  | succ j ih => exact findFuel_succ (k + j) s x o t ih hne

theorem Inv.rnk_lt_n {s : DSU} {rep : Nat → Nat} (h : Inv s rep) (i : Nat)
    (hi : i < s.parent_.length) : rnk s i < s.parent_.length := by
  have h1 := h.rank_size i hi
  have h2 := h.size_card (rep i) (h.rep_lt i hi) (h.root_rep i)
  have h3 : ((Finset.range s.parent_.length).filter (fun y => rep y = rep i)).card
      ≤ s.parent_.length := by
    calc _ ≤ (Finset.range s.parent_.length).card := Finset.card_filter_le _ _
      _ = s.parent_.length := Finset.card_range _
  have h4 : rnk s i < 2 ^ rnk s i := Nat.lt_two_pow (rnk s i)
  omega

theorem par_set (s : DSU) (ps : List Nat) (x r i : Nat) (hx : x < ps.length) :
    par { s with parent_ := ps.set x r } i =
      if i = x then r else par { s with parent_ := ps } i := by
  simp only [par, List.getD_eq_getElem?_getD, List.getElem?_set]
  by_cases h : x = i
  · subst h; simp [hx]
  · have h2 : ¬ i = x := fun e => h e.symm
    simp [h, h2]

/-- Functional description of `findFuel` on a well-formed store. -/
theorem findFuel_spec {s : DSU} {rep : Nat → Nat} (h : Inv s rep) :
    ∀ k x, x < s.parent_.length → s.parent_.length ≤ k + rnk s x →
      ∃ ps, DSU.findFuel k s x = (.ok (rep x), { s with parent_ := ps }) ∧
        ps.length = s.parent_.length ∧
        ∀ i, par { s with parent_ := ps } i = if i ∈ walk s k x then rep x else par s i := by
  intro k
  induction k with
  | zero =>
    intro x hx hk
    have := h.rnk_lt_n x hx
    omega
  | succ k ih =>
    intro x hx hk
    by_cases hr : par s x = x
    · refine ⟨s.parent_, ?_, rfl, ?_⟩
      · rw [findFuel_root k s x hx hr, h.rep_root x hr]
      · intro i
        have hw : walk s (k + 1) x = [x] := by
          simp only [walk]; rw [if_pos hr]
        rw [hw]
        by_cases hi : i = x
        · subst hi; simp [h.rep_root i hr]; exact hr
        · simp [hi]
    · have hlt := h.rank_lt x hr
      have hp := h.par_lt x hx
      obtain ⟨ps, hrec, hlen, hps⟩ := ih (par s x) hp (by omega)
      rw [h.rep_par] at hrec hps
      refine ⟨ps.set x (rep x), ?_, by simp [hlen], ?_⟩
      · rw [findFuel_step k s _ x (rep x) hx hr hrec hlen]
      · intro i
        have hw : walk s (k + 1) x = x :: walk s k (par s x) := by
          simp only [walk]; rw [if_neg hr]
        rw [hw, par_set s ps x (rep x) i (by omega)]
        by_cases hi : i = x
        · subst hi; simp
        · simp only [hi, if_false, List.mem_cons, false_or]
          exact hps i

theorem Inv.rank_lt_rep {s : DSU} {rep : Nat → Nat} (h : Inv s rep) :
    ∀ m i, s.parent_.length ≤ m + rnk s i → par s i ≠ i → rnk s i < rnk s (rep i) := by
  intro m
  induction m with
  | zero =>
    intro i hm hr
    have hi : i < s.parent_.length := by
      by_contra hc
      exact hr (par_of_ge s i (by omega))
    have := h.rnk_lt_n i hi
    omega
  | succ m ih =>
    intro i hm hr
    have hlt := h.rank_lt i hr
    by_cases hp : par s (par s i) = par s i
    · have := h.rep_root _ hp
      rw [h.rep_par] at this
      rw [this]; exact hlt
    · have := ih (par s i) (by omega) hp
      rw [h.rep_par] at this
      omega

theorem Inv.rep_rep {s : DSU} {rep : Nat → Nat} (h : Inv s rep) (i : Nat) :
    rep (rep i) = rep i :=
  h.rep_root _ (h.root_rep i)

/-- Redirecting parent links to representatives keeps the invariant. -/
theorem Inv.compress {s : DSU} {rep : Nat → Nat} (h : Inv s rep) (ps : List Nat)
    (hlen : ps.length = s.parent_.length)
    (hps : ∀ i, par { s with parent_ := ps } i = par s i ∨
      par { s with parent_ := ps } i = rep i) :
    Inv { s with parent_ := ps } rep := by
  have hroot : ∀ i, par { s with parent_ := ps } i = i ↔ par s i = i := by
    intro i
    constructor
    · intro hi
      rcases hps i with h1 | h1
      · rw [← h1]; exact hi
      · have := h.root_rep i
        rw [← h1, hi] at this
        exact this
    · intro hi
      rcases hps i with h1 | h1
      · rw [h1]; exact hi
      · rw [h1]; exact h.rep_root i hi
  constructor
  · show ps.length < SIZE_MOD
    rw [hlen]; exact h.n_lt
  · show s.rank_.length = ps.length
    rw [hlen]; exact h.rank_len
  · show s.size_.length = ps.length
    rw [hlen]; exact h.size_len
  · intro i hi
    change i < ps.length at hi
    show _ < ps.length
    rw [hlen] at hi ⊢
    rcases hps i with h1 | h1
    · rw [h1]; exact h.par_lt i hi
    · rw [h1]; exact h.rep_lt i hi
  · intro i hi
    change i < ps.length at hi
    show _ < ps.length
    rw [hlen] at hi ⊢
    exact h.rep_lt i hi
  · intro i hi
    change ps.length ≤ i at hi
    rw [hlen] at hi
    exact h.rep_ge i hi
  · intro i
    rcases hps i with h1 | h1
    · rw [h1]; exact h.rep_par i
    · rw [h1]; exact h.rep_rep i
  · intro i hi
    exact h.rep_root i ((hroot i).1 hi)
  · intro i
    exact (hroot (rep i)).2 (h.root_rep i)
  · intro i hi
    have hi2 : par s i ≠ i := fun e => hi ((hroot i).2 e)
    show rnk s i < rnk s _
    rcases hps i with h1 | h1
    · rw [h1]; exact h.rank_lt i hi2
    · rw [h1]; exact h.rank_lt_rep _ i (Nat.le_add_right _ _) hi2
  · intro i hi
    change i < ps.length at hi
    rw [hlen] at hi
    exact h.rank_size i hi
  · intro r hr hr2
    change r < ps.length at hr
    show siz s r = ((Finset.range ps.length).filter (fun y => rep y = r)).card
    rw [hlen] at hr ⊢
    exact h.size_card r hr ((hroot r).1 hr2)
  · show s.components_ = ((Finset.range ps.length).filter
      (fun i => par { s with parent_ := ps } i = i)).card
    rw [hlen, h.comps]
    congr 1
    apply Finset.filter_congr
    intro i _
    exact (hroot i).symm

/-- Functional description of `find` on a well-formed store. -/
theorem find_spec {s : DSU} {rep : Nat → Nat} (h : Inv s rep) (x : Nat)
    (hx : x < s.parent_.length) :
    ∃ ps, s.find x = (.ok (rep x), { s with parent_ := ps }) ∧
      ps.length = s.parent_.length ∧
      (∀ i, par { s with parent_ := ps } i =
        if i ∈ walk s (s.parent_.length + 1) x then rep x else par s i) ∧
      Inv { s with parent_ := ps } rep := by
  obtain ⟨ps, h1, h2, h3⟩ := findFuel_spec h (s.parent_.length + 1) x hx (by omega)
  refine ⟨ps, h1, h2, h3, ?_⟩
  have hwalk : ∀ k y i, i ∈ walk s k y → rep i = rep y := by
    intro k
    induction k with
    | zero => intro y i hi; simp [walk] at hi
    | succ k ih =>
      intro y i hi
      simp only [walk] at hi
      split at hi
      · simp at hi; rw [hi]
      · rcases List.mem_cons.1 hi with e | e
        · rw [e]
        · rw [ih _ i e, h.rep_par]
  apply h.compress ps h2
  intro i
  rw [h3 i]
  by_cases hi : i ∈ walk s (s.parent_.length + 1) x
  · right; rw [if_pos hi, hwalk _ _ _ hi]
  · left; rw [if_neg hi]

theorem find_out_of_range (s : DSU) (x : Nat) (hx : s.parent_.length ≤ x) :
    s.find x = (.fail .out_of_range, s) :=
  findFuel_out_of_range _ s x hx

/-! ## `unite` -/

theorem getElem?_rnk (s : DSU) (i : Nat) (hi : i < s.rank_.length) :
    s.rank_[i]? = some (rnk s i) := by
  simp [rnk, List.getD_eq_getElem?_getD, hi]

theorem getElem?_siz (s : DSU) (i : Nat) (hi : i < s.size_.length) :
    s.size_[i]? = some (siz s i) := by
  simp [siz, List.getD_eq_getElem?_getD, hi]

theorem link_eq (s : DSU) (ra rb : Nat) (ha : ra < s.parent_.length)
    (hb : rb < s.parent_.length) (hrl : s.rank_.length = s.parent_.length)
    (hsl : s.size_.length = s.parent_.length) :
    s.link ra rb = some (linked s (winner s ra rb) (loser s ra rb)) := by
  have h1 := getElem?_rnk s ra (by omega)
  have h2 := getElem?_rnk s rb (by omega)
  have h3 := getElem?_siz s ra (by omega)
  have h4 := getElem?_siz s rb (by omega)
  unfold DSU.link
  rw [h1, h2]
  by_cases hlt : rnk s ra < rnk s rb
  · simp [hlt, writeAt, ha, h1, h2, h3, h4, linked, winner, loser]
  · simp [hlt, writeAt, hb, h1, h2, h3, h4, linked, winner, loser]

theorem winner_loser (s : DSU) (ra rb : Nat) :
    (winner s ra rb = ra ∧ loser s ra rb = rb ∨ winner s ra rb = rb ∧ loser s ra rb = ra) ∧
      rnk s (loser s ra rb) ≤ rnk s (winner s ra rb) := by
  unfold winner loser
  by_cases h : rnk s ra < rnk s rb
  · simp [h]; omega
  · simp [h]; omega

theorem getD_set_eq (l : List Nat) (j v i d : Nat) (hj : j < l.length) :
    (l.set j v).getD i d = if i = j then v else l.getD i d := by
  simp only [List.getD_eq_getElem?_getD, List.getElem?_set]
  by_cases h : j = i
  · subst h; simp [hj]
  · have h2 : ¬ i = j := fun e => h e.symm
    simp [h, h2]

theorem par_linked (s : DSU) (hi lo i : Nat) (hlo : lo < s.parent_.length) :
    par (linked s hi lo) i = if i = lo then hi else par s i := by
  show (s.parent_.set lo hi).getD i i = _
  rw [getD_set_eq _ _ _ _ _ hlo]; rfl

theorem siz_linked (s : DSU) (hi lo i : Nat) (hhi : hi < s.size_.length) :
    siz (linked s hi lo) i =
      if i = hi then (siz s hi + siz s lo) % SIZE_MOD else siz s i := by
  show (s.size_.set hi _).getD i 0 = _
  rw [getD_set_eq _ _ _ _ _ hhi]; rfl

theorem rnk_linked (s : DSU) (hi lo i : Nat) (hhi : hi < s.rank_.length) :
    rnk (linked s hi lo) i =
      if i = hi ∧ rnk s hi = rnk s lo then (rnk s hi + 1) % RANK_MOD else rnk s i := by
  by_cases he : rnk s hi = rnk s lo
  · have : (linked s hi lo).rank_ = s.rank_.set hi ((rnk s hi + 1) % RANK_MOD) := by
      simp [linked, he]
    show (linked s hi lo).rank_.getD i 0 = _
    rw [this, getD_set_eq _ _ _ _ _ hhi]
    by_cases h : i = hi
    · simp [h, he]
    · rw [if_neg h, if_neg (fun c => h c.1)]; rfl
  · have : (linked s hi lo).rank_ = s.rank_ := by
      simp [linked, he]
    show (linked s hi lo).rank_.getD i 0 = _
    rw [this, if_neg (fun c => he c.2)]; rfl

theorem linked_length (s : DSU) (hi lo : Nat) :
    (linked s hi lo).parent_.length = s.parent_.length := by
  simp [linked]

theorem class_card (s : DSU) (rep : Nat → Nat) (hi lo : Nat) (hne : hi ≠ lo) :
    ((Finset.range s.parent_.length).filter (fun y => relabel rep hi lo y = hi)).card =
      ((Finset.range s.parent_.length).filter (fun y => rep y = hi)).card +
      ((Finset.range s.parent_.length).filter (fun y => rep y = lo)).card := by
  have e : (Finset.range s.parent_.length).filter (fun y => relabel rep hi lo y = hi) =
      (Finset.range s.parent_.length).filter (fun y => rep y = hi ∨ rep y = lo) := by
    apply Finset.filter_congr
    intro y _
    unfold relabel
    by_cases c : rep y = lo
    · simp [c]
    · simp [c]
  rw [e, Finset.filter_or, Finset.card_union_of_disjoint]
  rw [Finset.disjoint_filter]
  intro y _ h1 h2
  exact hne (h1.symm.trans h2)

theorem Inv.after_link {s : DSU} {rep : Nat → Nat} (h : Inv s rep) (hi lo : Nat)
    (hhi : hi < s.parent_.length) (hlo : lo < s.parent_.length)
    (rhi : par s hi = hi) (rlo : par s lo = lo) (hne : hi ≠ lo)
    (hrk : rnk s lo ≤ rnk s hi) :
    Inv (linked s hi lo) (relabel rep hi lo) ∧
      (linked s hi lo).components_ + 1 = s.components_ := by
  have hlen := linked_length s hi lo
  have ehi : rep hi = hi := h.rep_root hi rhi
  have elo : rep lo = lo := h.rep_root lo rlo
  have hA := h.size_card hi hhi rhi
  have hB := h.size_card lo hlo rlo
  have hAB := class_card s rep hi lo hne
  have hle : ((Finset.range s.parent_.length).filter
      (fun y => relabel rep hi lo y = hi)).card ≤ s.parent_.length := by
    calc _ ≤ (Finset.range s.parent_.length).card := Finset.card_filter_le _ _
      _ = s.parent_.length := Finset.card_range _
  have hnlt := h.n_lt
  have hsum : siz s hi + siz s lo < SIZE_MOD := by omega
  have hpar : ∀ i, par (linked s hi lo) i = if i = lo then hi else par s i :=
    fun i => par_linked s hi lo i hlo
  have hsiz : ∀ i, siz (linked s hi lo) i =
      if i = hi then siz s hi + siz s lo else siz s i := by
    intro i
    rw [siz_linked s hi lo i (by rw [h.size_len]; exact hhi), Nat.mod_eq_of_lt hsum]
  have h2hi : 2 ^ rnk s hi ≤ siz s hi := by
    have := h.rank_size hi hhi
    rwa [ehi] at this
  have h2lo : 2 ^ rnk s lo ≤ siz s lo := by
    have := h.rank_size lo hlo
    rwa [elo] at this
  have hbump : rnk s hi = rnk s lo → 2 ^ (rnk s hi + 1) ≤ siz s hi + siz s lo := by
    intro e
    rw [← e] at h2lo
    rw [Nat.pow_succ]
    omega
  have hrnk : ∀ i, rnk (linked s hi lo) i =
      if i = hi ∧ rnk s hi = rnk s lo then rnk s hi + 1 else rnk s i := by
    intro i
    rw [rnk_linked s hi lo i (by rw [h.rank_len]; exact hhi)]
    by_cases c : i = hi ∧ rnk s hi = rnk s lo
    · rw [if_pos c, if_pos c]
      apply Nat.mod_eq_of_lt
      have h1 := hbump c.2
      have h3 : rnk s hi + 1 < 64 := by
        by_contra hc
        have : 2 ^ 64 ≤ 2 ^ (rnk s hi + 1) :=
          Nat.pow_le_pow_right (by norm_num) (by omega)
        unfold SIZE_MOD at hsum
        omega
      unfold RANK_MOD
      omega
    · rw [if_neg c, if_neg c]
  have hrnk_ge : ∀ i, rnk s i ≤ rnk (linked s hi lo) i := by
    intro i
    rw [hrnk]
    split <;> rename_i c
    · rw [c.1]; omega
    · exact le_refl _
  have hrl : ∀ i, relabel rep hi lo i ≠ lo := by
    intro i
    unfold relabel
    by_cases c : rep i = lo
    · rw [if_pos c]; exact hne
    · rw [if_neg c]; exact c
  have hroot : ∀ i, par (linked s hi lo) i = i ↔ (par s i = i ∧ i ≠ lo) := by
    intro i
    rw [hpar]
    by_cases c : i = lo
    · rw [if_pos c]
      constructor
      · intro e; exact absurd (e.trans c) hne
      · intro e; exact absurd c e.2
    · rw [if_neg c]
      constructor
      · intro e; exact ⟨e, c⟩
      · intro e; exact e.1
  refine ⟨?_, ?_⟩
  · constructor
    · rw [hlen]; exact hnlt
    · rw [hlen, ← h.rank_len]
      unfold linked
      dsimp only
      split <;> simp
    · rw [hlen, ← h.size_len]
      simp [linked]
    · intro i hi1
      rw [hlen] at hi1 ⊢
      rw [hpar]
      split
      · exact hhi
      · exact h.par_lt i hi1
    · intro i hi1
      rw [hlen] at hi1 ⊢
      unfold relabel
      split
      · exact hhi
      · exact h.rep_lt i hi1
    · intro i hi1
      rw [hlen] at hi1
      unfold relabel
      rw [h.rep_ge i hi1]
      rw [if_neg (by omega)]
    · intro i
      rw [hpar]
      by_cases c : i = lo
      · rw [if_pos c, c]
        unfold relabel
        rw [ehi, elo, if_neg hne, if_pos rfl]
      · rw [if_neg c]
        unfold relabel
        rw [h.rep_par]
    · intro i hi1
      have := (hroot i).1 hi1
      unfold relabel
      rw [h.rep_root i this.1, if_neg this.2]
    · intro i
      rw [hpar, if_neg (hrl i)]
      unfold relabel
      by_cases c : rep i = lo
      · rw [if_pos c]; exact rhi
      · rw [if_neg c]; exact h.root_rep i
    · intro i hi1
      rw [hpar] at hi1 ⊢
      by_cases c : i = lo
      · rw [if_pos c, c]
        rw [hrnk lo, hrnk hi]
        rw [if_neg (fun e => hne e.1.symm)]
        by_cases e : rnk s hi = rnk s lo
        · rw [if_pos ⟨rfl, e⟩]; omega
        · rw [if_neg (fun c => e c.2)]; omega
      · rw [if_neg c] at hi1 ⊢
        have h1 := h.rank_lt i hi1
        have h2 := hrnk_ge (par s i)
        have h3 : i ≠ hi := by
          intro e; rw [e] at hi1; exact hi1 rhi
        rw [hrnk i, if_neg (fun e => h3 e.1)]
        omega
    · intro i hi1
      rw [hlen] at hi1
      have h0 := h.rank_size i hi1
      rw [hrnk, hsiz]
      by_cases c : i = hi ∧ rnk s hi = rnk s lo
      · rw [if_pos c]
        have : relabel rep hi lo i = hi := by
          unfold relabel
          rw [c.1, ehi, if_neg hne]
        rw [if_pos this]
        exact hbump c.2
      · rw [if_neg c]
        unfold relabel
        by_cases d : rep i = lo
        · rw [if_pos d, if_pos rfl]
          rw [d] at h0
          omega
        · rw [if_neg d]
          by_cases d2 : rep i = hi
          · rw [if_pos d2]
            rw [d2] at h0
            omega
          · rw [if_neg d2]; exact h0
    · intro r hr1 hr2
      rw [hlen] at hr1 ⊢
      have hr3 := (hroot r).1 hr2
      rw [hsiz]
      by_cases c : r = hi
      · rw [if_pos c, c, hAB, hA, hB]
      · rw [if_neg c, h.size_card r hr1 hr3.1]
        congr 1
        apply Finset.filter_congr
        intro y _
        unfold relabel
        by_cases d : rep y = lo
        · rw [if_pos d, d]
          constructor
          · intro e; exact absurd e.symm hr3.2
          · intro e; exact absurd e.symm c
        · rw [if_neg d]
    · rw [hlen]
      have hmem : lo ∈ (Finset.range s.parent_.length).filter (fun i => par s i = i) := by
        simp [hlo, rlo]
      have hcard := Finset.card_erase_of_mem hmem
      have hpos : 0 < ((Finset.range s.parent_.length).filter (fun i => par s i = i)).card :=
        Finset.card_pos.2 ⟨lo, hmem⟩
      have e : (Finset.range s.parent_.length).filter
          (fun i => par (linked s hi lo) i = i) =
          ((Finset.range s.parent_.length).filter (fun i => par s i = i)).erase lo := by
        ext i
        simp only [Finset.mem_filter, Finset.mem_erase, Finset.mem_range, hroot]
        tauto
      rw [e, hcard, ← h.comps]
      have hc : 0 < s.components_ := by rw [h.comps]; exact hpos
      simp [linked, hc]
  · have hmem : lo ∈ (Finset.range s.parent_.length).filter (fun i => par s i = i) := by
      simp [hlo, rlo]
    have hpos : 0 < ((Finset.range s.parent_.length).filter (fun i => par s i = i)).card :=
      Finset.card_pos.2 ⟨lo, hmem⟩
    have hc : 0 < s.components_ := by rw [h.comps]; exact hpos
    simp only [linked, hc, if_true]
    omega

/-! ## The public operations on a well-formed store -/

/-- The two consecutive `find` calls made by `same` and by `unite`. -/
theorem find_find_spec {s : DSU} {rep : Nat → Nat} (h : Inv s rep) (a b : Nat)
    (ha : a < s.parent_.length) (hb : b < s.parent_.length) :
    ∃ ps1 ps2, s.find a = (.ok (rep a), { s with parent_ := ps1 }) ∧
      DSU.find { s with parent_ := ps1 } b = (.ok (rep b), { s with parent_ := ps2 }) ∧
      ps1.length = s.parent_.length ∧ ps2.length = s.parent_.length ∧
      Inv { s with parent_ := ps1 } rep ∧ Inv { s with parent_ := ps2 } rep := by
  obtain ⟨ps1, h1, l1, _, i1⟩ := find_spec h a ha
  obtain ⟨ps2, h2, l2, _, i2⟩ :=
    find_spec i1 b (show b < ps1.length by rw [l1]; exact hb)
  exact ⟨ps1, ps2, h1, h2, l1, l2.trans l1, i1, i2⟩

theorem same_spec {s : DSU} {rep : Nat → Nat} (h : Inv s rep) (a b : Nat)
    (ha : a < s.parent_.length) (hb : b < s.parent_.length) :
    ∃ ps, s.same a b = (.ok (decide (rep a = rep b)), { s with parent_ := ps }) ∧
      ps.length = s.parent_.length ∧ Inv { s with parent_ := ps } rep := by
  obtain ⟨ps1, ps2, h1, h2, _, l2, _, i2⟩ := find_find_spec h a b ha hb
  refine ⟨ps2, ?_, l2, i2⟩
  simp only [DSU.same, h1, h2]

theorem same_fail_left (s : DSU) (a b : Nat) (ha : s.parent_.length ≤ a) :
    s.same a b = (.fail .out_of_range, s) := by
  simp only [DSU.same, find_out_of_range s a ha]

theorem same_fail_right {s : DSU} {rep : Nat → Nat} (h : Inv s rep) (a b : Nat)
    (ha : a < s.parent_.length) (hb : s.parent_.length ≤ b) :
    s.same a b = (.fail .out_of_range, (s.find a).2) := by
  obtain ⟨ps1, h1, l1, _, _⟩ := find_spec h a ha
  have h2 := find_out_of_range { s with parent_ := ps1 } b (show ps1.length ≤ b by omega)
  simp only [DSU.same, h1, h2]

theorem unite_fail_left (s : DSU) (a b : Nat) (ha : s.parent_.length ≤ a) :
    s.unite a b = (.fail .out_of_range, s) := by
  simp only [DSU.unite, find_out_of_range s a ha]

theorem unite_fail_right {s : DSU} {rep : Nat → Nat} (h : Inv s rep) (a b : Nat)
    (ha : a < s.parent_.length) (hb : s.parent_.length ≤ b) :
    s.unite a b = (.fail .out_of_range, (s.find a).2) := by
  obtain ⟨ps1, h1, l1, _, _⟩ := find_spec h a ha
  have h2 := find_out_of_range { s with parent_ := ps1 } b (show ps1.length ≤ b by omega)
  simp only [DSU.unite, h1, h2]

theorem unite_spec_same {s : DSU} {rep : Nat → Nat} (h : Inv s rep) (a b : Nat)
    (ha : a < s.parent_.length) (hb : b < s.parent_.length) (he : rep a = rep b) :
    ∃ ps, s.unite a b = (.ok false, { s with parent_ := ps }) ∧
      ps.length = s.parent_.length ∧ Inv { s with parent_ := ps } rep ∧
      { s with parent_ := ps } = (DSU.find (s.find a).2 b).2 := by
  obtain ⟨ps1, ps2, h1, h2, _, l2, _, i2⟩ := find_find_spec h a b ha hb
  refine ⟨ps2, ?_, l2, i2, ?_⟩
  · simp only [DSU.unite, h1, h2, he, if_true]
  · rw [h1]; dsimp only; rw [h2]

theorem unite_spec_diff {s : DSU} {rep : Nat → Nat} (h : Inv s rep) (a b : Nat)
    (ha : a < s.parent_.length) (hb : b < s.parent_.length) (he : rep a ≠ rep b) :
    ∃ ps, ps.length = s.parent_.length ∧ Inv { s with parent_ := ps } rep ∧
      { s with parent_ := ps } = (DSU.find (s.find a).2 b).2 ∧
      s.unite a b = (.ok true, linked { s with parent_ := ps }
        (winner s (rep a) (rep b)) (loser s (rep a) (rep b))) ∧
      Inv (linked { s with parent_ := ps } (winner s (rep a) (rep b))
        (loser s (rep a) (rep b)))
        (relabel rep (winner s (rep a) (rep b)) (loser s (rep a) (rep b))) ∧
      (linked { s with parent_ := ps } (winner s (rep a) (rep b))
        (loser s (rep a) (rep b))).components_ + 1 = s.components_ := by
  obtain ⟨ps1, ps2, h1, h2, _, l2, _, i2⟩ := find_find_spec h a b ha hb
  have hw : winner { s with parent_ := ps2 } (rep a) (rep b) = winner s (rep a) (rep b) := rfl
  have hl : loser { s with parent_ := ps2 } (rep a) (rep b) = loser s (rep a) (rep b) := rfl
  have hra : rep a < ps2.length := by rw [l2]; exact h.rep_lt a ha
  have hrb : rep b < ps2.length := by rw [l2]; exact h.rep_lt b hb
  have hlink := link_eq { s with parent_ := ps2 } (rep a) (rep b) hra hrb i2.rank_len
    i2.size_len
  rw [hw, hl] at hlink
  obtain ⟨hcase, hrk⟩ := winner_loser s (rep a) (rep b)
  have hpa : par { s with parent_ := ps2 } (rep a) = rep a := i2.root_rep a
  have hpb : par { s with parent_ := ps2 } (rep b) = rep b := i2.root_rep b
  have hfin : Inv (linked { s with parent_ := ps2 } (winner s (rep a) (rep b))
        (loser s (rep a) (rep b)))
        (relabel rep (winner s (rep a) (rep b)) (loser s (rep a) (rep b))) ∧
      (linked { s with parent_ := ps2 } (winner s (rep a) (rep b))
        (loser s (rep a) (rep b))).components_ + 1 = s.components_ := by
    rcases hcase with ⟨e1, e2⟩ | ⟨e1, e2⟩
    · rw [e1, e2] at hrk ⊢
      exact i2.after_link (rep a) (rep b) hra hrb hpa hpb he hrk
    · rw [e1, e2] at hrk ⊢
      exact i2.after_link (rep b) (rep a) hrb hra hpb hpa (Ne.symm he) hrk
  refine ⟨ps2, l2, i2, ?_, ?_, hfin.1, hfin.2⟩
  · rw [h1]; dsimp only; rw [h2]
  · simp only [DSU.unite, h1, h2, he, if_false, hlink]

theorem component_size_spec {s : DSU} {rep : Nat → Nat} (h : Inv s rep) (x : Nat)
    (hx : x < s.parent_.length) :
    ∃ ps, s.component_size x = (.ok (siz s (rep x)), { s with parent_ := ps }) ∧
      ps.length = s.parent_.length ∧ Inv { s with parent_ := ps } rep ∧
      { s with parent_ := ps } = (s.find x).2 := by
  obtain ⟨ps, h1, l1, _, i1⟩ := find_spec h x hx
  refine ⟨ps, ?_, l1, i1, by rw [h1]⟩
  have := getElem?_siz s (rep x) (by rw [h.size_len]; exact h.rep_lt x hx)
  simp only [DSU.component_size, h1, this]

theorem component_size_fail (s : DSU) (x : Nat) (hx : s.parent_.length ≤ x) :
    s.component_size x = (.fail .out_of_range, s) := by
  simp only [DSU.component_size, find_out_of_range s x hx]

theorem is_root_spec (s : DSU) (x : Nat) (hx : x < s.parent_.length) :
    s.is_root x = .ok (decide (par s x = x)) := by
  have h1 : ¬ (x ≥ s.parent_.length) := by omega
  simp [DSU.is_root, DSU.require_in_range_const, h1, getElem?_par s x hx]

theorem is_root_fail (s : DSU) (x : Nat) (hx : s.parent_.length ≤ x) :
    s.is_root x = .fail .out_of_range := by
  simp [DSU.is_root, DSU.require_in_range_const, hx]

/-! ## Reachable stores are well-formed -/

theorem find_inv {s : DSU} {rep : Nat → Nat} (h : Inv s rep) (x : Nat) :
    Inv (s.find x).2 rep ∧ (s.find x).2.parent_.length = s.parent_.length := by
  by_cases hx : x < s.parent_.length
  · obtain ⟨ps, h1, l1, _, i1⟩ := find_spec h x hx
    rw [h1]; exact ⟨i1, l1⟩
  · rw [find_out_of_range s x (by omega)]; exact ⟨h, rfl⟩

theorem same_inv {s : DSU} {rep : Nat → Nat} (h : Inv s rep) (a b : Nat) :
    Inv (s.same a b).2 rep ∧ (s.same a b).2.parent_.length = s.parent_.length := by
  by_cases ha : a < s.parent_.length
  · by_cases hb : b < s.parent_.length
    · obtain ⟨ps, h1, l1, i1⟩ := same_spec h a b ha hb
      rw [h1]; exact ⟨i1, l1⟩
    · rw [same_fail_right h a b ha (by omega)]; exact find_inv h a
  · rw [same_fail_left s a b (by omega)]; exact ⟨h, rfl⟩

theorem component_size_inv {s : DSU} {rep : Nat → Nat} (h : Inv s rep) (x : Nat) :
    Inv (s.component_size x).2 rep ∧
      (s.component_size x).2.parent_.length = s.parent_.length := by
  by_cases hx : x < s.parent_.length
  · obtain ⟨ps, h1, l1, i1, _⟩ := component_size_spec h x hx
    rw [h1]; exact ⟨i1, l1⟩
  · rw [component_size_fail s x (by omega)]; exact ⟨h, rfl⟩

theorem unite_inv {s : DSU} {rep : Nat → Nat} (h : Inv s rep) (a b : Nat) :
    (∃ rep1, Inv (s.unite a b).2 rep1) ∧
      (s.unite a b).2.parent_.length = s.parent_.length := by
  by_cases ha : a < s.parent_.length
  · by_cases hb : b < s.parent_.length
    · by_cases he : rep a = rep b
      · obtain ⟨ps, h1, l1, i1, _⟩ := unite_spec_same h a b ha hb he
        rw [h1]; exact ⟨⟨rep, i1⟩, l1⟩
      · obtain ⟨ps, l1, _, _, h1, i1, _⟩ := unite_spec_diff h a b ha hb he
        rw [h1]; exact ⟨⟨_, i1⟩, (linked_length _ _ _).trans l1⟩
    · rw [unite_fail_right h a b ha (by omega)]
      exact ⟨⟨rep, (find_inv h a).1⟩, (find_inv h a).2⟩
  · rw [unite_fail_left s a b (by omega)]; exact ⟨⟨rep, h⟩, rfl⟩

theorem exec_inv {s : DSU} {rep : Nat → Nat} (h : Inv s rep) (c : Call)
    (hc : c.representable) : ∃ rep1, Inv (exec s c) rep1 := by
  cases c with
  | reset n => exact ⟨id, by rw [exec, reset_eq]; exact Inv_fresh n hc⟩
  | find x => exact ⟨rep, (find_inv h x).1⟩
  | same a b => exact ⟨rep, (same_inv h a b).1⟩
  | unite a b => exact (unite_inv h a b).1
  | component_size x => exact ⟨rep, (component_size_inv h x).1⟩
  | is_root x => exact ⟨rep, h⟩

theorem Reachable.inv {s : DSU} (h : Reachable s) : ∃ rep, Inv s rep := by
  induction h with
  | reset s0 n hn => exact ⟨id, by rw [reset_eq]; exact Inv_fresh n hn⟩
  | call s c _ hc ih =>
    obtain ⟨rep, hi⟩ := ih
    exact exec_inv hi c hc

/-! ## Connectivity -/

theorem eqvGen_congr {r1 r2 : Nat → Nat → Prop} (h : ∀ u v, r1 u v ↔ r2 u v) (x y : Nat) :
    Relation.EqvGen r1 x y ↔ Relation.EqvGen r2 x y :=
  ⟨Relation.EqvGen.mono (fun u v => (h u v).1), Relation.EqvGen.mono (fun u v => (h u v).2)⟩

/-- Adding an edge inside a class does not change the classes. -/
theorem conn_same_class {rep : Nat → Nat} {R : Nat → Nat → Prop}
    (hR : ∀ x y, rep x = rep y ↔ Relation.EqvGen R x y) (a b : Nat) (he : rep a = rep b) :
    ∀ x y, rep x = rep y ↔ Relation.EqvGen (fun u v => R u v ∨ (u, v) = (a, b)) x y := by
  intro x y
  constructor
  · intro e
    exact Relation.EqvGen.mono (fun u v h => Or.inl h) ((hR x y).1 e)
  · intro e
    induction e with
    | rel u v huv =>
      rcases huv with h1 | h1
      · exact (hR u v).2 (Relation.EqvGen.rel u v h1)
      · cases h1; exact he
    | refl u => rfl
    | symm u v _ ih => exact ih.symm
    | trans u v w _ _ ih1 ih2 => exact ih1.trans ih2

/-- Merging the classes of `a` and `b` adds exactly the edge `(a, b)`. -/
theorem conn_relabel {rep : Nat → Nat} {R : Nat → Nat → Prop}
    (hR : ∀ x y, rep x = rep y ↔ Relation.EqvGen R x y) (a b hi lo : Nat)
    (hc : hi = rep a ∧ lo = rep b ∨ hi = rep b ∧ lo = rep a) :
    ∀ x y, relabel rep hi lo x = relabel rep hi lo y ↔
      Relation.EqvGen (fun u v => R u v ∨ (u, v) = (a, b)) x y := by
  have hab : Relation.EqvGen (fun u v => R u v ∨ (u, v) = (a, b)) a b :=
    Relation.EqvGen.rel a b (Or.inr rfl)
  have up : ∀ x y, rep x = rep y →
      Relation.EqvGen (fun u v => R u v ∨ (u, v) = (a, b)) x y := fun x y e =>
    Relation.EqvGen.mono (fun u v h => Or.inl h) ((hR x y).1 e)
  have hbridge : ∀ x y, rep x = lo → rep y = hi →
      Relation.EqvGen (fun u v => R u v ∨ (u, v) = (a, b)) x y := by
    intro x y hx hy
    rcases hc with ⟨e1, e2⟩ | ⟨e1, e2⟩
    · have h1 := up x b (hx.trans e2)
      have h2 := up a y (e1.symm.trans hy.symm)
      exact Relation.EqvGen.trans _ _ _ h1
        (Relation.EqvGen.trans _ _ _ (Relation.EqvGen.symm _ _ hab) h2)
    · have h1 := up x a (hx.trans e2)
      have h2 := up b y (e1.symm.trans hy.symm)
      exact Relation.EqvGen.trans _ _ _ h1 (Relation.EqvGen.trans _ _ _ hab h2)
  intro x y
  constructor
  · intro e
    unfold relabel at e
    by_cases cx : rep x = lo
    · by_cases cy : rep y = lo
      · exact up x y (cx.trans cy.symm)
      · rw [if_pos cx, if_neg cy] at e
        exact hbridge x y cx e.symm
    · by_cases cy : rep y = lo
      · rw [if_neg cx, if_pos cy] at e
        exact Relation.EqvGen.symm _ _ (hbridge y x cy e)
      · rw [if_neg cx, if_neg cy] at e
        exact up x y e
  · intro e
    induction e with
    | rel u v huv =>
      rcases huv with h1 | h1
      · have := (hR u v).2 (Relation.EqvGen.rel u v h1)
        unfold relabel
        rw [this]
      · cases h1
        unfold relabel
        rcases hc with ⟨e1, e2⟩ | ⟨e1, e2⟩
        · rw [← e1, ← e2]
          by_cases c : hi = lo
          · simp [c]
          · simp [c]
        · rw [← e1, ← e2]
          by_cases c : hi = lo
          · simp [c]
          · simp [c]
    | refl u => rfl
    | symm u v _ ih => exact ih.symm
    | trans u v w _ _ ih1 ih2 => exact ih1.trans ih2

theorem exec_conn {s : DSU} {rep : Nat → Nat} {R : Nat → Nat → Prop} (h : Inv s rep)
    (hR : ∀ x y, rep x = rep y ↔ Relation.EqvGen R x y) (c : Call)
    (hc : c.valid s.parent_.length) :
    ∃ rep1, Inv (exec s c) rep1 ∧ (exec s c).parent_.length = s.parent_.length ∧
      ∀ x y, rep1 x = rep1 y ↔
        Relation.EqvGen (fun u v => R u v ∨ (u, v) ∈ edges [c]) x y := by
  have hnone : ∀ x y, rep x = rep y ↔
      Relation.EqvGen (fun u v => R u v ∨ (u, v) ∈ ([] : List (Nat × Nat))) x y := by
    intro x y
    rw [hR x y]
    apply eqvGen_congr
    intro u v; simp
  cases c with
  | reset n => exact absurd hc (by simp [Call.valid])
  | find x => exact ⟨rep, (find_inv h x).1, (find_inv h x).2, hnone⟩
  | same a b => exact ⟨rep, (same_inv h a b).1, (same_inv h a b).2, hnone⟩
  | component_size x =>
    exact ⟨rep, (component_size_inv h x).1, (component_size_inv h x).2, hnone⟩
  | is_root x => exact ⟨rep, h, rfl, hnone⟩
  | unite a b =>
    obtain ⟨ha, hb⟩ := hc
    have hone : ∀ u v : Nat, (R u v ∨ (u, v) ∈ edges [Call.unite a b]) ↔
        (R u v ∨ (u, v) = (a, b)) := by
      intro u v; simp [edges]
    by_cases he : rep a = rep b
    · obtain ⟨ps, h1, l1, i1, _⟩ := unite_spec_same h a b ha hb he
      refine ⟨rep, ?_, ?_, ?_⟩
      · show Inv (s.unite a b).2 rep
        rw [h1]; exact i1
      · show (s.unite a b).2.parent_.length = _
        rw [h1]; exact l1
      · intro x y
        rw [eqvGen_congr hone]
        exact conn_same_class hR a b he x y
    · obtain ⟨ps, l1, _, _, h1, i1, _⟩ := unite_spec_diff h a b ha hb he
      refine ⟨relabel rep (winner s (rep a) (rep b)) (loser s (rep a) (rep b)), ?_, ?_, ?_⟩
      · show Inv (s.unite a b).2 _
        rw [h1]; exact i1
      · show (s.unite a b).2.parent_.length = _
        rw [h1]; exact (linked_length _ _ _).trans l1
      · intro x y
        rw [eqvGen_congr hone]
        apply conn_relabel hR a b
        have := (winner_loser s (rep a) (rep b)).1
        tauto

theorem run_conn (cs : List Call) : ∀ {s : DSU} {rep : Nat → Nat} {R : Nat → Nat → Prop},
    Inv s rep → (∀ x y, rep x = rep y ↔ Relation.EqvGen R x y) →
    (∀ c ∈ cs, c.valid s.parent_.length) →
    ∃ rep1, Inv (run s cs) rep1 ∧ (run s cs).parent_.length = s.parent_.length ∧
      ∀ x y, rep1 x = rep1 y ↔
        Relation.EqvGen (fun u v => R u v ∨ (u, v) ∈ edges cs) x y := by
  induction cs with
  | nil =>
    intro s rep R h hR _
    refine ⟨rep, h, rfl, ?_⟩
    intro x y
    rw [hR x y]
    apply eqvGen_congr
    intro u v; simp [edges]
  | cons c cs ih =>
    intro s rep R h hR hv
    obtain ⟨rep1, i1, l1, c1⟩ := exec_conn h hR c (hv c (List.mem_cons_self _ _))
    have hv1 : ∀ d ∈ cs, d.valid (exec s c).parent_.length := by
      intro d hd
      rw [l1]; exact hv d (List.mem_cons_of_mem _ hd)
    obtain ⟨rep2, i2, l2, c2⟩ := ih i1 c1 hv1
    refine ⟨rep2, i2, l2.trans l1, ?_⟩
    intro x y
    rw [c2 x y]
    apply eqvGen_congr
    intro u v
    cases c <;> simp [edges, or_assoc]

theorem new_conn (n : Nat) (hn : n < SIZE_MOD) (cs : List Call)
    (hv : ∀ c ∈ cs, c.valid n) :
    ∃ rep, Inv (run (DSU.new n) cs) rep ∧ (run (DSU.new n) cs).parent_.length = n ∧
      ∀ x y, rep x = rep y ↔ Connected (edges cs) x y := by
  have hf : DSU.new n = fresh n := reset_eq _ n
  have hl : (fresh n).parent_.length = n := by simp [fresh]
  have hid : ∀ x y : Nat, id x = id y ↔ Relation.EqvGen (fun _ _ => False) x y := by
    intro x y
    constructor
    · intro e
      have e1 : x = y := e
      rw [e1]; exact Relation.EqvGen.refl y
    · intro e
      induction e with
      | rel u v huv => exact absurd huv id
      | refl u => rfl
      | symm u v _ ih => exact ih.symm
      | trans u v w _ _ ih1 ih2 => exact ih1.trans ih2
  rw [hf]
  obtain ⟨rep, i1, l1, c1⟩ := run_conn cs (Inv_fresh n hn) hid (by rw [hl]; exact hv)
  refine ⟨rep, i1, l1.trans hl, ?_⟩
  intro x y
  rw [c1 x y]
  apply eqvGen_congr
  intro u v; simp

theorem edges_scan (es : List (Nat × Nat)) : edges (scan es) = es := by
  induction es with
  | nil => rfl
  | cons e es ih =>
    obtain ⟨u, v⟩ := e
    simp [scan, edges, ih]

/-! ## Paths and frames -/

theorem walk_spec {s : DSU} {rep : Nat → Nat} (h : Inv s rep) :
    ∀ k x, x < s.parent_.length → s.parent_.length ≤ k + rnk s x →
      (walk s k x).head? = some x ∧ (walk s k x).getLast? = some (rep x) ∧
      List.Chain' (fun u v => s.parent_[u]? = some v ∧ v ≠ u) (walk s k x) ∧
      ∀ i ∈ walk s k x, i < s.parent_.length := by
  intro k
  induction k with
  | zero =>
    intro x hx hk
    have := h.rnk_lt_n x hx
    omega
  | succ k ih =>
    intro x hx hk
    by_cases hr : par s x = x
    · have hw : walk s (k + 1) x = [x] := by
        simp only [walk]; rw [if_pos hr]
      rw [hw]
      refine ⟨rfl, ?_, List.chain'_singleton _, ?_⟩
      · rw [h.rep_root x hr]; rfl
      · intro i hi
        rw [List.mem_singleton.1 hi]; exact hx
    · have hw : walk s (k + 1) x = x :: walk s k (par s x) := by
        simp only [walk]; rw [if_neg hr]
      have hlt := h.rank_lt x hr
      obtain ⟨h1, h2, h3, h4⟩ := ih (par s x) (h.par_lt x hx) (by omega)
      rw [hw]
      refine ⟨rfl, ?_, ?_, ?_⟩
      · rw [List.getLast?_cons, h2, h.rep_par]; rfl
      · rw [List.chain'_cons']
        refine ⟨?_, h3⟩
        intro y hy
        rw [h1] at hy
        cases hy
        exact ⟨getElem?_par s x hx, hr⟩
      · intro i hi
        rcases List.mem_cons.1 hi with e | e
        · rw [e]; exact hx
        · exact h4 i e

theorem framed_of_inv {s : DSU} {rep : Nat → Nat} (h : Inv s rep) (ps : List Nat)
    (hl : ps.length = s.parent_.length) (h1 : Inv { s with parent_ := ps } rep) :
    Framed s { s with parent_ := ps } := by
  refine ⟨rfl, rfl, rfl, hl, ?_⟩
  intro y hy
  obtain ⟨q1, e1, _⟩ := find_spec h y hy
  obtain ⟨q2, e2, _⟩ := find_spec h1 y (show y < ps.length by rw [hl]; exact hy)
  exact ⟨rep y, by rw [e1], by rw [e2]⟩

theorem find_framed {s : DSU} {rep : Nat → Nat} (h : Inv s rep) (x : Nat)
    (hx : x < s.parent_.length) : Framed s (s.find x).2 := by
  obtain ⟨ps, h1, l1, _, i1⟩ := find_spec h x hx
  rw [h1]; exact framed_of_inv h ps l1 i1

/-! ## Queries on the store of singletons -/

theorem find_fresh (n i : Nat) (hi : i < n) : (fresh n).find i = (.ok i, fresh n) :=
  findFuel_root _ (fresh n) i (by simpa [fresh] using hi) (par_fresh n i)

theorem same_fresh (n a b : Nat) (ha : a < n) (hb : b < n) :
    (fresh n).same a b = (.ok (decide (a = b)), fresh n) := by
  simp only [DSU.same, find_fresh n a ha, find_fresh n b hb]

theorem component_size_fresh (n i : Nat) (hi : i < n) :
    (fresh n).component_size i = (.ok 1, fresh n) := by
  have h1 : (fresh n).size_[i]? = some 1 := by simp [fresh, hi]
  simp only [DSU.component_size, find_fresh n i hi, h1]

theorem is_root_fresh (n i : Nat) (hi : i < n) : (fresh n).is_root i = .ok true := by
  rw [is_root_spec (fresh n) i (by simpa [fresh] using hi), par_fresh]
  simp

/-! ## Counting roots -/

theorem Inv.image_rep {s : DSU} {rep : Nat → Nat} (h : Inv s rep) :
    (Finset.range s.parent_.length).image rep =
      (Finset.range s.parent_.length).filter (fun i => par s i = i) := by
  ext r
  simp only [Finset.mem_image, Finset.mem_filter, Finset.mem_range]
  constructor
  · rintro ⟨i, hi, e⟩
    rw [← e]
    exact ⟨h.rep_lt i hi, h.root_rep i⟩
  · rintro ⟨hr, e⟩
    exact ⟨r, hr, h.rep_root r e⟩

/-! ## The contract -/

/-- C1: after any sequence of calls with valid indices on a freshly constructed `DSU(n)`,
`same(x, y)` returns true exactly when `x` and `y` are connected by the pairs passed to
`unite`; in particular, while scanning an edge list with `same(u, v)` queried before
`unite(u, v)`, the query for the next edge is true exactly when that edge closes a
cycle with the edges processed before. -/
theorem C1_same_iff_connected (n : Nat) (hn : n < SIZE_MOD) :
    (∀ cs : List Call, (∀ c ∈ cs, c.valid n) → ∀ x y, x < n → y < n →
      ∃ b, ((run (DSU.new n) cs).same x y).1 = .ok b ∧
        (b = true ↔ Connected (edges cs) x y)) ∧
    (∀ (es : List (Nat × Nat)) (u v : Nat), (∀ e ∈ es, e.1 < n ∧ e.2 < n) → u < n → v < n →
      ∃ b, ((run (DSU.new n) (scan es)).same u v).1 = .ok b ∧
        (b = true ↔ Connected es u v)) := by
  have main : ∀ cs : List Call, (∀ c ∈ cs, c.valid n) → ∀ x y, x < n → y < n →
      ∃ b, ((run (DSU.new n) cs).same x y).1 = .ok b ∧
        (b = true ↔ Connected (edges cs) x y) := by
    intro cs hv x y hx hy
    obtain ⟨rep, i1, l1, c1⟩ := new_conn n hn cs hv
    obtain ⟨ps, h1, _, _⟩ := same_spec i1 x y (by omega) (by omega)
    refine ⟨decide (rep x = rep y), by rw [h1], ?_⟩
    rw [← c1 x y]
    simp
  refine ⟨main, ?_⟩
  intro es u v hes hu hv
  have hvalid : ∀ c ∈ scan es, c.valid n := by
    clear main
    induction es with
    | nil => intro c hc; simp [scan] at hc
    | cons e es ih =>
      obtain ⟨a, b⟩ := e
      intro c hc
      have hab := hes (a, b) (List.mem_cons_self _ _)
      simp only [scan, List.mem_cons] at hc
      rcases hc with e1 | e1 | e1
      · rw [e1]; exact hab
      · rw [e1]; exact hab
      · exact ih (fun e he => hes e (List.mem_cons_of_mem _ he)) c e1
  have := main (scan es) hvalid u v hu hv
  rwa [edges_scan] at this

/-- C1 at `examples/cycle_detection.cpp`: after the first four edges the query for the
edge `(4, 1)` tells whether it closes a cycle. -/
theorem C1_same_iff_connected_witness :
    5 < SIZE_MOD ∧
    ∃ b, ((run (DSU.new 5) (scan [(0, 1), (1, 2), (2, 3), (3, 4)])).same 4 1).1 = .ok b ∧
      (b = true ↔ Connected [(0, 1), (1, 2), (2, 3), (3, 4)] 4 1) :=
  ⟨by decide, (C1_same_iff_connected 5 (by decide)).2 [(0, 1), (1, 2), (2, 3), (3, 4)] 4 1
    (by decide) (by decide) (by decide)⟩

/-- C2: on a reachable store with `a, b < n`, `unite(a, b)` returns; it returns false
and leaves `components()` unchanged exactly when `same(a, b)` was true before the call,
and otherwise it returns true and `components()` drops by exactly one (the counter is
positive, so the guard never suppresses the decrement). -/
theorem C2_unite_result (s : DSU) (hs : Reachable s) (a b : Nat) (ha : a < s.n)
    (hb : b < s.n) :
    ∃ r s1, s.unite a b = (.ok r, s1) ∧
      ((r = false ∧ s1.components = s.components) ↔ (s.same a b).1 = .ok true) ∧
      ((s.same a b).1 ≠ .ok true →
        r = true ∧ 0 < s.components ∧ s1.components = s.components - 1) := by
  obtain ⟨rep, hi⟩ := hs.inv
  obtain ⟨ps0, h0, _, _⟩ := same_spec hi a b ha hb
  by_cases he : rep a = rep b
  · obtain ⟨ps, h1, _, _, _⟩ := unite_spec_same hi a b ha hb he
    refine ⟨false, _, h1, ?_, ?_⟩
    · rw [h0]; simp [he, DSU.components]
    · rw [h0]; simp [he]
  · obtain ⟨ps, _, _, _, h1, _, hc⟩ := unite_spec_diff hi a b ha hb he
    refine ⟨true, _, h1, ?_, ?_⟩
    · rw [h0]; simp [he]
    · intro _
      refine ⟨rfl, ?_, ?_⟩
      · simp only [DSU.components]; omega
      · simp only [DSU.components]; omega

/-- C2 on the store of `test_basic_unions` after `unite(1, 2)`. -/
theorem C2_unite_result_witness :
    Reachable (exec (DSU.new 6) (.unite 1 2)) ∧
    ∃ r s1, (exec (DSU.new 6) (.unite 1 2)).unite 1 2 = (.ok r, s1) ∧
      ((r = false ∧ s1.components = (exec (DSU.new 6) (.unite 1 2)).components) ↔
        ((exec (DSU.new 6) (.unite 1 2)).same 1 2).1 = .ok true) ∧
      (((exec (DSU.new 6) (.unite 1 2)).same 1 2).1 ≠ .ok true →
        r = true ∧ 0 < (exec (DSU.new 6) (.unite 1 2)).components ∧
          s1.components = (exec (DSU.new 6) (.unite 1 2)).components - 1) :=
  ⟨Reachable.call _ (.unite 1 2) (Reachable.reset DSU.empty 6 (by decide)) trivial,
    C2_unite_result _ (Reachable.call _ (.unite 1 2) (Reachable.reset DSU.empty 6 (by decide)) trivial)
      1 2 (by decide) (by decide)⟩

/-- C3: on a reachable store with `x < n`, `component_size(x)` returns `size_[find(x)]`,
and this is the number of indices `y < n` for which `same(x, y)` is true, whether the
queries are made before or after the call. -/
theorem C3_component_size_card (s : DSU) (hs : Reachable s) (x : Nat) (hx : x < s.n) :
    ∃ r s1, s.find x = (.ok r, s1) ∧ s.component_size x = (.ok (siz s r), s1) ∧
      siz s r = ((Finset.range s.n).filter (fun y => (s.same x y).1 = .ok true)).card ∧
      siz s r = ((Finset.range s.n).filter (fun y => (s1.same x y).1 = .ok true)).card := by
  obtain ⟨rep, hi⟩ := hs.inv
  obtain ⟨ps, h1, l1, i1, e1⟩ := component_size_spec hi x hx
  have hf : s.find x = (.ok (rep x), { s with parent_ := ps }) := by
    obtain ⟨ps2, h2, _, _, _⟩ := find_spec hi x hx
    rw [h2] at e1
    rw [h2, e1]
  refine ⟨rep x, _, hf, h1, ?_, ?_⟩
  · rw [hi.size_card (rep x) (hi.rep_lt x hx) (hi.root_rep x)]
    congr 1
    apply Finset.filter_congr
    intro y hy
    obtain ⟨ps3, h3, _, _⟩ := same_spec hi x y hx (Finset.mem_range.1 hy)
    rw [h3]
    simp [eq_comm]
  · rw [hi.size_card (rep x) (hi.rep_lt x hx) (hi.root_rep x)]
    congr 1
    apply Finset.filter_congr
    intro y hy
    obtain ⟨ps3, h3, _, _⟩ := same_spec i1 x y (show x < ps.length by rw [l1]; exact hx)
      (show y < ps.length by rw [l1]; exact Finset.mem_range.1 hy)
    rw [h3]
    simp [eq_comm]

/-- C3 on the store of `test_component_sizes` after `unite(0, 1)`. -/
theorem C3_component_size_card_witness :
    Reachable (exec (DSU.new 7) (.unite 0 1)) ∧
    ∃ r s1, (exec (DSU.new 7) (.unite 0 1)).find 1 = (.ok r, s1) ∧
      (exec (DSU.new 7) (.unite 0 1)).component_size 1 =
        (.ok (siz (exec (DSU.new 7) (.unite 0 1)) r), s1) ∧
      siz (exec (DSU.new 7) (.unite 0 1)) r =
        ((Finset.range (exec (DSU.new 7) (.unite 0 1)).n).filter
          (fun y => ((exec (DSU.new 7) (.unite 0 1)).same 1 y).1 = .ok true)).card ∧
      siz (exec (DSU.new 7) (.unite 0 1)) r =
        ((Finset.range (exec (DSU.new 7) (.unite 0 1)).n).filter
          (fun y => (s1.same 1 y).1 = .ok true)).card :=
  ⟨Reachable.call _ (.unite 0 1) (Reachable.reset DSU.empty 7 (by decide)) trivial,
    C3_component_size_card _
      (Reachable.call _ (.unite 0 1) (Reachable.reset DSU.empty 7 (by decide)) trivial) 1 (by decide)⟩

/-- C4: on a reachable store, `find`, `component_size` and `is_root` raise the
out-of-range error exactly when `x >= n`, `same` and `unite` exactly when `a >= n` or
`b >= n`; with all arguments below `n` every call returns a value; on an empty store
every index is rejected. -/
theorem C4_out_of_range_iff (s : DSU) (hs : Reachable s) :
    (∀ x, ((s.find x).1 = .fail .out_of_range ↔ s.n ≤ x) ∧
      ((s.component_size x).1 = .fail .out_of_range ↔ s.n ≤ x) ∧
      (s.is_root x = .fail .out_of_range ↔ s.n ≤ x) ∧
      (x < s.n → (∃ r, (s.find x).1 = .ok r) ∧ (∃ c, (s.component_size x).1 = .ok c) ∧
        ∃ b, s.is_root x = .ok b)) ∧
    (∀ a b, ((s.same a b).1 = .fail .out_of_range ↔ (s.n ≤ a ∨ s.n ≤ b)) ∧
      ((s.unite a b).1 = .fail .out_of_range ↔ (s.n ≤ a ∨ s.n ≤ b)) ∧
      (a < s.n → b < s.n →
        (∃ r, (s.same a b).1 = .ok r) ∧ ∃ r, (s.unite a b).1 = .ok r)) ∧
    (s.n = 0 → ∀ x y, (s.find x).1 = .fail .out_of_range ∧
      (s.component_size x).1 = .fail .out_of_range ∧
      s.is_root x = .fail .out_of_range ∧
      (s.same x y).1 = .fail .out_of_range ∧ (s.unite x y).1 = .fail .out_of_range) := by
  obtain ⟨rep, hi⟩ := hs.inv
  have hone : ∀ x, ((s.find x).1 = .fail .out_of_range ↔ s.n ≤ x) ∧
      ((s.component_size x).1 = .fail .out_of_range ↔ s.n ≤ x) ∧
      (s.is_root x = .fail .out_of_range ↔ s.n ≤ x) ∧
      (x < s.n → (∃ r, (s.find x).1 = .ok r) ∧ (∃ c, (s.component_size x).1 = .ok c) ∧
        ∃ b, s.is_root x = .ok b) := by
    intro x
    by_cases hx : x < s.n
    · have hx1 : ¬ s.n ≤ x := by omega
      obtain ⟨ps1, h1, _⟩ := find_spec hi x hx
      obtain ⟨ps2, h2, _⟩ := component_size_spec hi x hx
      have h3 := is_root_spec s x hx
      rw [h1, h2, h3]
      simp [hx1]
    · have hx1 : s.n ≤ x := by omega
      rw [find_out_of_range s x hx1, component_size_fail s x hx1, is_root_fail s x hx1]
      simp [hx1, hx]
  have htwo : ∀ a b, ((s.same a b).1 = .fail .out_of_range ↔ (s.n ≤ a ∨ s.n ≤ b)) ∧
      ((s.unite a b).1 = .fail .out_of_range ↔ (s.n ≤ a ∨ s.n ≤ b)) ∧
      (a < s.n → b < s.n →
        (∃ r, (s.same a b).1 = .ok r) ∧ ∃ r, (s.unite a b).1 = .ok r) := by
    intro a b
    by_cases ha : a < s.n
    · by_cases hb : b < s.n
      · have ha1 : ¬ s.n ≤ a := by omega
        have hb1 : ¬ s.n ≤ b := by omega
        obtain ⟨ps1, h1, _⟩ := same_spec hi a b ha hb
        have hu : ∃ r, (s.unite a b).1 = .ok r := by
          by_cases he : rep a = rep b
          · obtain ⟨ps, h2, _⟩ := unite_spec_same hi a b ha hb he
            exact ⟨false, by rw [h2]⟩
          · obtain ⟨ps, _, _, _, h2, _⟩ := unite_spec_diff hi a b ha hb he
            exact ⟨true, by rw [h2]⟩
        obtain ⟨r, hr⟩ := hu
        rw [h1, hr]
        simp [ha1, hb1]
      · have hb1 : s.n ≤ b := by omega
        rw [same_fail_right hi a b ha hb1, unite_fail_right hi a b ha hb1]
        simp [hb1, hb]
    · have ha1 : s.n ≤ a := by omega
      rw [same_fail_left s a b ha1, unite_fail_left s a b ha1]
      simp [ha1, ha]
  refine ⟨hone, htwo, ?_⟩
  intro h0 x y
  have hx : s.n ≤ x := by omega
  exact ⟨(hone x).1.2 hx, (hone x).2.1.2 hx, (hone x).2.2.1.2 hx,
    (htwo x y).1.2 (Or.inl hx), (htwo x y).2.1.2 (Or.inl hx)⟩

/-- C4 on the store of `test_out_of_range`, where `find(10)` must throw. -/
theorem C4_out_of_range_iff_witness :
    Reachable (DSU.new 3) ∧ (DSU.new 3).n ≤ 10 ∧
      ((DSU.new 3).find 10).1 = .fail .out_of_range :=
  ⟨Reachable.reset DSU.empty 3 (by decide), by decide,
    ((C4_out_of_range_iff (DSU.new 3) (Reachable.reset DSU.empty 3 (by decide))).1 10).1.2
      (by decide)⟩

/-- C5 fails as stated: on the reachable store with parent array `[0, 0, 0, 2]`,
`unite(3, 10)` raises the out-of-range error for `b = 10` only after `find(3)` has
compressed the path of `3`, and the parent array is left as `[0, 0, 0, 0]`. -/
theorem C5_counterexample :
    Reachable (run (DSU.new 4) [.unite 0 1, .unite 2 3, .unite 0 2]) ∧
    3 < (run (DSU.new 4) [.unite 0 1, .unite 2 3, .unite 0 2]).n ∧
    (run (DSU.new 4) [.unite 0 1, .unite 2 3, .unite 0 2]).n ≤ 10 ∧
    ((run (DSU.new 4) [.unite 0 1, .unite 2 3, .unite 0 2]).unite 3 10).1 =
      .fail .out_of_range ∧
    (run (DSU.new 4) [.unite 0 1, .unite 2 3, .unite 0 2]).parent_ = [0, 0, 0, 2] ∧
    ((run (DSU.new 4) [.unite 0 1, .unite 2 3, .unite 0 2]).unite 3 10).2.parent_ =
      [0, 0, 0, 0] ∧
    ((run (DSU.new 4) [.unite 0 1, .unite 2 3, .unite 0 2]).unite 3 10).2 ≠
      run (DSU.new 4) [.unite 0 1, .unite 2 3, .unite 0 2] :=
  ⟨Reachable.call _ (.unite 0 2) (Reachable.call _ (.unite 2 3) (Reachable.call _ (.unite 0 1)
      (Reachable.reset DSU.empty 4 (by decide)) trivial) trivial) trivial,
    by decide, by decide, by decide, by decide, by decide, by decide⟩

/-- C5, amended: a call on a reachable store with an index argument `>= n` raises the
out-of-range error and never changes rank, size, the components counter or `n`.  The
parent array is unchanged as well when the first (or only) index is invalid.  When `a`
is valid and only `b` is invalid, `same(a, b)` and `unite(a, b)` leave the store exactly
as `find(a)` leaves it: no union is applied and every index keeps its root. -/
theorem C5_failed_call_state (s : DSU) (hs : Reachable s) :
    (∀ x, s.n ≤ x → s.find x = (.fail .out_of_range, s) ∧
      s.component_size x = (.fail .out_of_range, s) ∧
      s.is_root x = .fail .out_of_range) ∧
    (∀ a b, s.n ≤ a → s.same a b = (.fail .out_of_range, s) ∧
      s.unite a b = (.fail .out_of_range, s)) ∧
    (∀ a b, a < s.n → s.n ≤ b →
      s.same a b = (.fail .out_of_range, (s.find a).2) ∧
      s.unite a b = (.fail .out_of_range, (s.find a).2) ∧
      Framed s (s.find a).2) := by
  obtain ⟨rep, hi⟩ := hs.inv
  refine ⟨?_, ?_, ?_⟩
  · intro x hx
    exact ⟨find_out_of_range s x hx, component_size_fail s x hx, is_root_fail s x hx⟩
  · intro a b ha
    exact ⟨same_fail_left s a b ha, unite_fail_left s a b ha⟩
  · intro a b ha hb
    exact ⟨same_fail_right hi a b ha hb, unite_fail_right hi a b ha hb, find_framed hi a ha⟩

/-- C5, amended, on the store of the counterexample: the failed `unite(3, 10)` leaves the
store as `find(3)` leaves it. -/
theorem C5_failed_call_state_witness :
    Reachable (run (DSU.new 4) [.unite 0 1, .unite 2 3, .unite 0 2]) ∧
    (run (DSU.new 4) [.unite 0 1, .unite 2 3, .unite 0 2]).unite 3 10 =
      (.fail .out_of_range,
        ((run (DSU.new 4) [.unite 0 1, .unite 2 3, .unite 0 2]).find 3).2) :=
  ⟨Reachable.call _ (.unite 0 2) (Reachable.call _ (.unite 2 3) (Reachable.call _ (.unite 0 1)
      (Reachable.reset DSU.empty 4 (by decide)) trivial) trivial) trivial,
    ((C5_failed_call_state _ (Reachable.call _ (.unite 0 2) (Reachable.call _ (.unite 2 3)
      (Reachable.call _ (.unite 0 1) (Reachable.reset DSU.empty 4 (by decide)) trivial)
      trivial) trivial)).2.2 3 10 (by decide) (by decide)).2.1⟩

/-- C6: on a reachable store with `x < n`, `find(x)` returns the index `r` at the end of
the chain of parent links that starts at `x` and stops at the first self-loop; `r` is a
root before and after the call; afterwards every node of that chain has parent `r`, and
every other parent entry is unchanged. -/
theorem C6_find_compresses (s : DSU) (hs : Reachable s) (x : Nat) (hx : x < s.n) :
    ∃ r s1 path, s.find x = (.ok r, s1) ∧
      path.head? = some x ∧ path.getLast? = some r ∧
      List.Chain' (fun u v => s.parent_[u]? = some v ∧ v ≠ u) path ∧
      s.parent_[r]? = some r ∧
      s.is_root r = .ok true ∧ s1.is_root r = .ok true ∧
      s1.n = s.n ∧
      (∀ i, i ∈ path → s1.parent_[i]? = some r) ∧
      (∀ i, i ∉ path → s1.parent_[i]? = s.parent_[i]?) := by
  obtain ⟨rep, hi⟩ := hs.inv
  obtain ⟨ps, h1, l1, hps, i1⟩ := find_spec hi x hx
  obtain ⟨w1, w2, w3, w4⟩ := walk_spec hi (s.parent_.length + 1) x hx (by omega)
  have hr := hi.rep_lt x hx
  have hroot := hi.root_rep x
  have hroot1 := i1.root_rep x
  refine ⟨rep x, _, walk s (s.parent_.length + 1) x, h1, w1, w2, w3, ?_, ?_, ?_, l1, ?_, ?_⟩
  · rw [getElem?_par s _ hr, hroot]
  · rw [is_root_spec s _ hr, hroot]; simp
  · rw [is_root_spec _ _ (show rep x < ps.length by rw [l1]; exact hr), hroot1]; simp
  · intro i hm
    have hlt := w4 i hm
    rw [getElem?_par _ i (show i < ps.length by rw [l1]; exact hlt), hps i, if_pos hm]
  · intro i hm
    by_cases hlt : i < s.parent_.length
    · rw [getElem?_par _ i (show i < ps.length by rw [l1]; exact hlt), hps i, if_neg hm,
        getElem?_par s i hlt]
    · rw [List.getElem?_eq_none (show ps.length ≤ i by omega),
        List.getElem?_eq_none (show s.parent_.length ≤ i by omega)]

/-- C6 on the store with parent array `[0, 0, 0, 2]`, at `x = 3`. -/
theorem C6_find_compresses_witness :
    Reachable (run (DSU.new 4) [.unite 0 1, .unite 2 3, .unite 0 2]) ∧
    ∃ r s1 path, (run (DSU.new 4) [.unite 0 1, .unite 2 3, .unite 0 2]).find 3 = (.ok r, s1) ∧
      path.head? = some 3 ∧ path.getLast? = some r ∧
      List.Chain' (fun u v =>
        (run (DSU.new 4) [.unite 0 1, .unite 2 3, .unite 0 2]).parent_[u]? = some v ∧ v ≠ u)
        path ∧
      (run (DSU.new 4) [.unite 0 1, .unite 2 3, .unite 0 2]).parent_[r]? = some r ∧
      (run (DSU.new 4) [.unite 0 1, .unite 2 3, .unite 0 2]).is_root r = .ok true ∧
      s1.is_root r = .ok true ∧
      s1.n = (run (DSU.new 4) [.unite 0 1, .unite 2 3, .unite 0 2]).n ∧
      (∀ i, i ∈ path → s1.parent_[i]? = some r) ∧
      (∀ i, i ∉ path → s1.parent_[i]? =
        (run (DSU.new 4) [.unite 0 1, .unite 2 3, .unite 0 2]).parent_[i]?) :=
  ⟨Reachable.call _ (.unite 0 2) (Reachable.call _ (.unite 2 3) (Reachable.call _ (.unite 0 1)
      (Reachable.reset DSU.empty 4 (by decide)) trivial) trivial) trivial,
    C6_find_compresses _ (Reachable.call _ (.unite 0 2) (Reachable.call _ (.unite 2 3)
      (Reachable.call _ (.unite 0 1) (Reachable.reset DSU.empty 4 (by decide)) trivial)
      trivial) trivial) 3 (by decide)⟩

/-- C7: on a reachable store, `find(x)`, `same(x, y)` and `component_size(x)` with valid
arguments leave rank, size, the components counter and `n` unchanged, and every valid
index resolves to the same root before and after the call. -/
theorem C7_query_frame (s : DSU) (hs : Reachable s) (x : Nat) (hx : x < s.n) :
    Framed s (s.find x).2 ∧ Framed s (s.component_size x).2 ∧
      ∀ y, y < s.n → Framed s (s.same x y).2 ∧ Framed s (s.same y x).2 := by
  obtain ⟨rep, hi⟩ := hs.inv
  refine ⟨find_framed hi x hx, ?_, ?_⟩
  · obtain ⟨ps, h1, l1, i1, _⟩ := component_size_spec hi x hx
    rw [h1]; exact framed_of_inv hi ps l1 i1
  · intro y hy
    obtain ⟨ps1, h1, l1, i1⟩ := same_spec hi x y hx hy
    obtain ⟨ps2, h2, l2, i2⟩ := same_spec hi y x hy hx
    rw [h1, h2]
    exact ⟨framed_of_inv hi ps1 l1 i1, framed_of_inv hi ps2 l2 i2⟩

/-- C7 on the store with parent array `[0, 0, 0, 2]`, at `x = 3`. -/
theorem C7_query_frame_witness :
    Reachable (run (DSU.new 4) [.unite 0 1, .unite 2 3, .unite 0 2]) ∧
    Framed (run (DSU.new 4) [.unite 0 1, .unite 2 3, .unite 0 2])
      ((run (DSU.new 4) [.unite 0 1, .unite 2 3, .unite 0 2]).find 3).2 :=
  ⟨Reachable.call _ (.unite 0 2) (Reachable.call _ (.unite 2 3) (Reachable.call _ (.unite 0 1)
      (Reachable.reset DSU.empty 4 (by decide)) trivial) trivial) trivial,
    (C7_query_frame _ (Reachable.call _ (.unite 0 2) (Reachable.call _ (.unite 2 3)
      (Reachable.call _ (.unite 0 1) (Reachable.reset DSU.empty 4 (by decide)) trivial)
      trivial) trivial) 3 (by decide)).1⟩

/-- C8: after `reset(n)` on any prior store, and after constructing `DSU(n)`, the store
has `n() = n`, `components() = n`, every index is a root, every rank is 0 and every size
is 1, so `component_size(i) = 1` and `same(a, b)` is true exactly when `a = b`; the
result does not depend on the prior store, and `n = 0` gives a store with zero
components. -/
theorem C8_reset_state (s : DSU) (n : Nat) :
    (s.reset n).n = n ∧ (s.reset n).components = n ∧
    (s.reset n).parent_ = List.range n ∧
    (s.reset n).rank_ = List.replicate n 0 ∧ (s.reset n).size_ = List.replicate n 1 ∧
    (∀ i, i < n → (s.reset n).is_root i = .ok true ∧
      ((s.reset n).component_size i).1 = .ok 1) ∧
    (∀ a b, a < n → b < n → ((s.reset n).same a b).1 = .ok (decide (a = b))) ∧
    (∀ t : DSU, t.reset n = s.reset n) ∧ DSU.new n = s.reset n ∧
    (s.reset 0).n = 0 ∧ (s.reset 0).components = 0 := by
  have h0 : s.reset 0 = fresh 0 := reset_eq s 0
  rw [h0, reset_eq s n]
  refine ⟨by simp [fresh, DSU.n], rfl, rfl, rfl, rfl, ?_, ?_, ?_, ?_, rfl, rfl⟩
  · intro i hi
    exact ⟨is_root_fresh n i hi, by rw [component_size_fresh n i hi]⟩
  · intro a b ha hb
    rw [same_fresh n a b ha hb]
  · intro t
    exact reset_eq t n
  · exact reset_eq DSU.empty n

/-- C8 on a store of four elements that has seen three unions, reset to three elements. -/
theorem C8_reset_state_witness :
    ((run (DSU.new 4) [.unite 0 1, .unite 2 3, .unite 0 2]).reset 3).parent_ = [0, 1, 2] ∧
    ((run (DSU.new 4) [.unite 0 1, .unite 2 3, .unite 0 2]).reset 3).components = 3 :=
  ⟨(C8_reset_state (run (DSU.new 4) [.unite 0 1, .unite 2 3, .unite 0 2]) 3).2.2.1,
    (C8_reset_state (run (DSU.new 4) [.unite 0 1, .unite 2 3, .unite 0 2]) 3).2.1⟩

/-- C9: on a reachable store, `same` is an equivalence relation on the valid indices,
path compression notwithstanding: `same(x, x)` is true; `same(a, b)` and `same(b, a)`
return the same value, called on the same store or one after the other; and when
`same(a, b)` and then `same(b, c)` return true, `same(a, c)` called next returns true. -/
theorem C9_same_equivalence (s : DSU) (hs : Reachable s) (x a b c : Nat) (hx : x < s.n)
    (ha : a < s.n) (hb : b < s.n) (hc : c < s.n) :
    (s.same x x).1 = .ok true ∧
    (∃ r, (s.same a b).1 = .ok r ∧ (s.same b a).1 = .ok r ∧
      (DSU.same (s.same a b).2 b a).1 = .ok r) ∧
    ((s.same a b).1 = .ok true → (DSU.same (s.same a b).2 b c).1 = .ok true →
      (DSU.same (DSU.same (s.same a b).2 b c).2 a c).1 = .ok true) ∧
    ((s.same a b).1 = .ok true → (s.same b c).1 = .ok true → (s.same a c).1 = .ok true) := by
  obtain ⟨rep, hi⟩ := hs.inv
  obtain ⟨p0, e0, _, _⟩ := same_spec hi x x hx hx
  obtain ⟨p1, e1, l1, i1⟩ := same_spec hi a b ha hb
  obtain ⟨p2, e2, _, _⟩ := same_spec hi b a hb ha
  obtain ⟨p3, e3, _, _⟩ := same_spec hi b c hb hc
  obtain ⟨p4, e4, _, _⟩ := same_spec hi a c ha hc
  have ha1 : a < p1.length := by rw [l1]; exact ha
  have hb1 : b < p1.length := by rw [l1]; exact hb
  have hc1 : c < p1.length := by rw [l1]; exact hc
  obtain ⟨p5, e5, _, _⟩ := same_spec i1 b a hb1 ha1
  obtain ⟨p6, e6, l6, i6⟩ := same_spec i1 b c hb1 hc1
  obtain ⟨p7, e7, _, _⟩ := same_spec i6 a c (show a < p6.length by rw [l6]; exact ha1)
    (show c < p6.length by rw [l6]; exact hc1)
  refine ⟨by rw [e0]; simp, ⟨decide (rep a = rep b), by rw [e1], ?_, ?_⟩, ?_, ?_⟩
  · rw [e2]; simp [eq_comm]
  · rw [e1, e5]; simp [eq_comm]
  · rw [e1, e6, e7]
    simp only [Outcome.ok.injEq, decide_eq_true_eq]
    intro h1 h2
    exact h1.trans h2
  · rw [e1, e3, e4]
    simp only [Outcome.ok.injEq, decide_eq_true_eq]
    intro h1 h2
    exact h1.trans h2

/-- C9 on the store with parent array `[0, 0, 0, 2]`: `same(3, 3)` is true. -/
theorem C9_same_equivalence_witness :
    Reachable (run (DSU.new 4) [.unite 0 1, .unite 2 3, .unite 0 2]) ∧
    ((run (DSU.new 4) [.unite 0 1, .unite 2 3, .unite 0 2]).same 3 3).1 = .ok true :=
  ⟨Reachable.call _ (.unite 0 2) (Reachable.call _ (.unite 2 3) (Reachable.call _ (.unite 0 1)
      (Reachable.reset DSU.empty 4 (by decide)) trivial) trivial) trivial,
    (C9_same_equivalence _ (Reachable.call _ (.unite 0 2) (Reachable.call _ (.unite 2 3)
      (Reachable.call _ (.unite 0 1) (Reachable.reset DSU.empty 4 (by decide)) trivial)
      trivial) trivial) 3 1 2 3 (by decide) (by decide) (by decide) (by decide)).1⟩

/-- C10: in every store reachable by any calls, failed ones and `reset` included,
`components()` is the number of indices `i < n` with `parent[i] == i`, which is also the
number of distinct results of `find(i)`; hence it is 0 when `n = 0` and between 1 and
`n` when `n > 0`. -/
theorem C10_components_count (s : DSU) (hs : Reachable s) :
    s.components = ((Finset.range s.n).filter (fun i => s.parent_[i]? = some i)).card ∧
    s.components = ((Finset.range s.n).image (fun i => (s.find i).1)).card ∧
    (s.n = 0 → s.components = 0) ∧
    (0 < s.n → 1 ≤ s.components ∧ s.components ≤ s.n) := by
  obtain ⟨rep, hi⟩ := hs.inv
  have hc : s.components =
      ((Finset.range s.parent_.length).filter (fun i => par s i = i)).card := hi.comps
  have hle : s.components ≤ s.parent_.length := by
    rw [hc]
    calc _ ≤ (Finset.range s.parent_.length).card := Finset.card_filter_le _ _
      _ = s.parent_.length := Finset.card_range _
  refine ⟨?_, ?_, ?_, ?_⟩
  · rw [hc]
    congr 1
    apply Finset.filter_congr
    intro i hi1
    rw [getElem?_par s i (Finset.mem_range.1 hi1)]
    simp
  · rw [hc, ← hi.image_rep]
    have e : (Finset.range s.n).image (fun i => (s.find i).1) =
        ((Finset.range s.parent_.length).image rep).image Outcome.ok := by
      rw [Finset.image_image]
      apply Finset.image_congr
      intro i hi1
      obtain ⟨ps, h1, _⟩ := find_spec hi i (Finset.mem_range.1 hi1)
      show (s.find i).1 = Outcome.ok (rep i)
      rw [h1]
    have hinj : Function.Injective (Outcome.ok : Nat → Outcome Nat) := by
      intro u v huv
      cases huv
      rfl
    rw [e, Finset.card_image_of_injective _ hinj]
  · intro h0
    have : s.parent_.length = 0 := h0
    omega
  · intro hpos
    refine ⟨?_, hle⟩
    rw [hc]
    apply Finset.card_pos.2
    exact ⟨rep 0, by
      simp only [Finset.mem_filter, Finset.mem_range]
      exact ⟨hi.rep_lt 0 hpos, hi.root_rep 0⟩⟩

/-- C10 on the store with parent array `[0, 0, 0, 2]` after the failed `unite(3, 10)`. -/
theorem C10_components_count_witness :
    Reachable (run (DSU.new 4) [.unite 0 1, .unite 2 3, .unite 0 2, .unite 3 10]) ∧
    (run (DSU.new 4) [.unite 0 1, .unite 2 3, .unite 0 2, .unite 3 10]).components =
      ((Finset.range (run (DSU.new 4) [.unite 0 1, .unite 2 3, .unite 0 2, .unite 3 10]).n).filter
        (fun i => (run (DSU.new 4) [.unite 0 1, .unite 2 3, .unite 0 2,
          .unite 3 10]).parent_[i]? = some i)).card :=
  ⟨Reachable.call _ (.unite 3 10) (Reachable.call _ (.unite 0 2) (Reachable.call _ (.unite 2 3)
      (Reachable.call _ (.unite 0 1) (Reachable.reset DSU.empty 4 (by decide)) trivial)
      trivial) trivial) trivial,
    (C10_components_count _ (Reachable.call _ (.unite 3 10) (Reachable.call _ (.unite 0 2)
      (Reachable.call _ (.unite 2 3) (Reachable.call _ (.unite 0 1)
      (Reachable.reset DSU.empty 4 (by decide)) trivial) trivial) trivial) trivial)).1⟩

/-- Repeated `find(x)` only rewrites parent links and keeps the invariant. -/
theorem run_find_replicate (x : Nat) : ∀ (k : Nat) {s : DSU} {rep : Nat → Nat}, Inv s rep →
    x < s.parent_.length →
    ∃ ps, run s (List.replicate k (Call.find x)) = { s with parent_ := ps } ∧
      ps.length = s.parent_.length ∧ Inv { s with parent_ := ps } rep := by
  intro k
  induction k with
  | zero =>
    intro s rep h _
    exact ⟨s.parent_, rfl, rfl, h⟩
  | succ k ih =>
    intro s rep h hx
    obtain ⟨ps1, h1, l1, _, i1⟩ := find_spec h x hx
    obtain ⟨ps2, h2, l2, i2⟩ := ih i1 (show x < ps1.length by rw [l1]; exact hx)
    refine ⟨ps2, ?_, l2.trans l1, i2⟩
    have e : exec s (Call.find x) = { s with parent_ := ps1 } := by
      show (s.find x).2 = _
      rw [h1]
    rw [List.replicate_succ]
    show run (exec s (Call.find x)) _ = _
    rw [e, h2]

/-- C11: in every reachable store the sizes stored at the current roots, which are what
`component_size` returns there, add up to `n`. -/
theorem C11_sizes_sum (s : DSU) (hs : Reachable s) :
    Finset.sum ((Finset.range s.n).filter (fun r => s.parent_[r]? = some r))
      (fun r => siz s r) = s.n ∧
    ∀ r, r < s.n → s.parent_[r]? = some r →
      s.size_[r]? = some (siz s r) ∧ (s.component_size r).1 = .ok (siz s r) := by
  obtain ⟨rep, hi⟩ := hs.inv
  have hroots : (Finset.range s.n).filter (fun r => s.parent_[r]? = some r) =
      (Finset.range s.parent_.length).filter (fun r => par s r = r) := by
    apply Finset.filter_congr
    intro r hr
    rw [getElem?_par s r (Finset.mem_range.1 hr)]
    simp
  refine ⟨?_, ?_⟩
  · rw [hroots]
    have hfib := Finset.card_eq_sum_card_fiberwise (f := rep)
      (s := Finset.range s.parent_.length)
      (t := (Finset.range s.parent_.length).filter (fun r => par s r = r))
      (by
        intro y hy
        simp only [Finset.mem_filter, Finset.mem_range]
        exact ⟨hi.rep_lt y (Finset.mem_range.1 hy), hi.root_rep y⟩)
    rw [Finset.card_range] at hfib
    show _ = s.parent_.length
    refine Eq.trans ?_ hfib.symm
    apply Finset.sum_congr rfl
    intro r hr
    simp only [Finset.mem_filter, Finset.mem_range] at hr
    exact hi.size_card r hr.1 hr.2
  · intro r hr hroot
    have hp : par s r = r := by
      rw [getElem?_par s r hr] at hroot
      exact Option.some.inj hroot
    obtain ⟨ps, h1, _⟩ := component_size_spec hi r hr
    refine ⟨getElem?_siz s r (by rw [hi.size_len]; exact hr), ?_⟩
    rw [h1, hi.rep_root r hp]

/-- C11 on the store with parent array `[0, 0, 0, 2]`. -/
theorem C11_sizes_sum_witness :
    Reachable (run (DSU.new 4) [.unite 0 1, .unite 2 3, .unite 0 2]) ∧
    Finset.sum ((Finset.range (run (DSU.new 4) [.unite 0 1, .unite 2 3, .unite 0 2]).n).filter
        (fun r => (run (DSU.new 4) [.unite 0 1, .unite 2 3, .unite 0 2]).parent_[r]? = some r))
      (fun r => siz (run (DSU.new 4) [.unite 0 1, .unite 2 3, .unite 0 2]) r) =
      (run (DSU.new 4) [.unite 0 1, .unite 2 3, .unite 0 2]).n :=
  ⟨Reachable.call _ (.unite 0 2) (Reachable.call _ (.unite 2 3) (Reachable.call _ (.unite 0 1)
      (Reachable.reset DSU.empty 4 (by decide)) trivial) trivial) trivial,
    (C11_sizes_sum _ (Reachable.call _ (.unite 0 2) (Reachable.call _ (.unite 2 3)
      (Reachable.call _ (.unite 0 1) (Reachable.reset DSU.empty 4 (by decide)) trivial)
      trivial) trivial)).1⟩

/-- C12: on a reachable store with `x < n`, every one of any number of consecutive
`find(x)` calls returns the same root `r`, `find(r)` returns `r` as well, and none of the
calls changes `components()` or any entry of the size array. -/
theorem C12_find_idempotent (s : DSU) (hs : Reachable s) (x : Nat) (hx : x < s.n) :
    ∃ r, (s.find x).1 = .ok r ∧
      (∀ k, ((run s (List.replicate k (Call.find x))).find x).1 = .ok r ∧
        (run s (List.replicate k (Call.find x))).size_ = s.size_ ∧
        (run s (List.replicate k (Call.find x))).components = s.components) ∧
      (s.find r).1 = .ok r ∧ (DSU.find (s.find x).2 r).1 = .ok r := by
  obtain ⟨rep, hi⟩ := hs.inv
  obtain ⟨ps, h1, l1, _, i1⟩ := find_spec hi x hx
  have hr := hi.rep_lt x hx
  obtain ⟨ps2, h2, _⟩ := find_spec hi (rep x) hr
  obtain ⟨ps3, h3, _⟩ := find_spec i1 (rep x) (show rep x < ps.length by rw [l1]; exact hr)
  refine ⟨rep x, by rw [h1], ?_, by rw [h2, hi.rep_rep], by rw [h1, h3, hi.rep_rep]⟩
  intro k
  obtain ⟨q, e, lq, iq⟩ := run_find_replicate x k hi hx
  obtain ⟨q2, h4, _⟩ := find_spec iq x (show x < q.length by rw [lq]; exact hx)
  rw [e]
  exact ⟨by rw [h4], rfl, rfl⟩

/-- C12 on the store with parent array `[0, 0, 0, 2]`, at `x = 3`. -/
theorem C12_find_idempotent_witness :
    Reachable (run (DSU.new 4) [.unite 0 1, .unite 2 3, .unite 0 2]) ∧
    ∃ r, ((run (DSU.new 4) [.unite 0 1, .unite 2 3, .unite 0 2]).find 3).1 = .ok r ∧
      (∀ k, ((run (run (DSU.new 4) [.unite 0 1, .unite 2 3, .unite 0 2])
          (List.replicate k (Call.find 3))).find 3).1 = .ok r ∧
        (run (run (DSU.new 4) [.unite 0 1, .unite 2 3, .unite 0 2])
          (List.replicate k (Call.find 3))).size_ =
          (run (DSU.new 4) [.unite 0 1, .unite 2 3, .unite 0 2]).size_ ∧
        (run (run (DSU.new 4) [.unite 0 1, .unite 2 3, .unite 0 2])
          (List.replicate k (Call.find 3))).components =
          (run (DSU.new 4) [.unite 0 1, .unite 2 3, .unite 0 2]).components) ∧
      ((run (DSU.new 4) [.unite 0 1, .unite 2 3, .unite 0 2]).find r).1 = .ok r ∧
      (DSU.find ((run (DSU.new 4) [.unite 0 1, .unite 2 3, .unite 0 2]).find 3).2 r).1 =
        .ok r :=
  ⟨Reachable.call _ (.unite 0 2) (Reachable.call _ (.unite 2 3) (Reachable.call _ (.unite 0 1)
      (Reachable.reset DSU.empty 4 (by decide)) trivial) trivial) trivial,
    C12_find_idempotent _ (Reachable.call _ (.unite 0 2) (Reachable.call _ (.unite 2 3)
      (Reachable.call _ (.unite 0 1) (Reachable.reset DSU.empty 4 (by decide)) trivial)
      trivial) trivial) 3 (by decide)⟩

/-! ## Arithmetic of sizes and ranks -/

theorem Inv.siz_root_le {s : DSU} {rep : Nat → Nat} (h : Inv s rep) (r : Nat)
    (hr : r < s.parent_.length) (hroot : par s r = r) : siz s r ≤ s.parent_.length := by
  rw [h.size_card r hr hroot]
  calc _ ≤ (Finset.range s.parent_.length).card := Finset.card_filter_le _ _
    _ = s.parent_.length := Finset.card_range _

theorem Inv.siz_add_le {s : DSU} {rep : Nat → Nat} (h : Inv s rep) (hi lo : Nat)
    (hhi : hi < s.parent_.length) (hlo : lo < s.parent_.length)
    (rhi : par s hi = hi) (rlo : par s lo = lo) (hne : hi ≠ lo) :
    siz s hi + siz s lo ≤ s.parent_.length := by
  rw [h.size_card hi hhi rhi, h.size_card lo hlo rlo, ← class_card s rep hi lo hne]
  calc _ ≤ (Finset.range s.parent_.length).card := Finset.card_filter_le _ _
    _ = s.parent_.length := Finset.card_range _

theorem Inv.two_pow_rnk_le {s : DSU} {rep : Nat → Nat} (h : Inv s rep) (i : Nat)
    (hi : i < s.parent_.length) : 2 ^ rnk s i ≤ s.parent_.length :=
  le_trans (h.rank_size i hi) (h.siz_root_le (rep i) (h.rep_lt i hi) (h.root_rep i))

theorem lt_64_of_two_pow_lt (r : Nat) (h : 2 ^ r < SIZE_MOD) : r < 64 := by
  by_contra hc
  have : 2 ^ 64 ≤ 2 ^ r := Nat.pow_le_pow_right (by norm_num) (by omega)
  unfold SIZE_MOD at h
  omega

theorem Inv.rnk_lt_64 {s : DSU} {rep : Nat → Nat} (h : Inv s rep) (i : Nat)
    (hi : i < s.parent_.length) : rnk s i < 64 :=
  lt_64_of_two_pow_lt _ (lt_of_le_of_lt (h.two_pow_rnk_le i hi) h.n_lt)

theorem Inv.two_pow_succ_le {s : DSU} {rep : Nat → Nat} (h : Inv s rep) (hi lo : Nat)
    (hhi : hi < s.parent_.length) (hlo : lo < s.parent_.length)
    (rhi : par s hi = hi) (rlo : par s lo = lo)
    (he : rnk s hi = rnk s lo) : 2 ^ (rnk s hi + 1) ≤ siz s hi + siz s lo := by
  have h1 := h.rank_size hi hhi
  have h2 := h.rank_size lo hlo
  rw [h.rep_root hi rhi] at h1
  rw [h.rep_root lo rlo, ← he] at h2
  rw [Nat.pow_succ]
  omega

theorem getElem?_congr_getD (l1 l2 : List Nat) (i d : Nat) (hl : l1.length = l2.length)
    (h : l1.getD i d = l2.getD i d) : l1[i]? = l2[i]? := by
  by_cases hi : i < l1.length
  · have hi2 : i < l2.length := by omega
    simp only [List.getD_eq_getElem?_getD, List.getElem?_eq_getElem hi,
      List.getElem?_eq_getElem hi2, Option.getD_some] at h
    rw [List.getElem?_eq_getElem hi, List.getElem?_eq_getElem hi2, h]
  · rw [List.getElem?_eq_none (by omega), List.getElem?_eq_none (by omega)]

theorem linked_rank_length (s : DSU) (hi lo : Nat) :
    (linked s hi lo).rank_.length = s.rank_.length := by
  unfold linked
  dsimp only
  split <;> simp

theorem linked_size_length (s : DSU) (hi lo : Nat) :
    (linked s hi lo).size_.length = s.size_.length := by
  simp [linked]

/-- The store after linking two distinct roots of a well-formed store, without the
modular reductions. -/
theorem Inv.linked_entries {s : DSU} {rep : Nat → Nat} (h : Inv s rep) (hi lo : Nat)
    (hhi : hi < s.parent_.length) (hlo : lo < s.parent_.length)
    (rhi : par s hi = hi) (rlo : par s lo = lo) (hne : hi ≠ lo) :
    (∀ i, par (linked s hi lo) i = if i = lo then hi else par s i) ∧
    (∀ i, siz (linked s hi lo) i = if i = hi then siz s hi + siz s lo else siz s i) ∧
    (∀ i, rnk (linked s hi lo) i =
      if i = hi ∧ rnk s hi = rnk s lo then rnk s hi + 1 else rnk s i) := by
  have hsum := h.siz_add_le hi lo hhi hlo rhi rlo hne
  have hn := h.n_lt
  refine ⟨fun i => par_linked s hi lo i hlo, ?_, ?_⟩
  · intro i
    rw [siz_linked s hi lo i (by rw [h.size_len]; exact hhi),
      Nat.mod_eq_of_lt (by omega)]
  · intro i
    rw [rnk_linked s hi lo i (by rw [h.rank_len]; exact hhi)]
    by_cases c : i = hi ∧ rnk s hi = rnk s lo
    · rw [if_pos c, if_pos c]
      apply Nat.mod_eq_of_lt
      have h1 := h.two_pow_succ_le hi lo hhi hlo rhi rlo c.2
      have h3 := lt_64_of_two_pow_lt (rnk s hi + 1) (by omega)
      unfold RANK_MOD
      omega
    · rw [if_neg c, if_neg c]

/-- C13: on a reachable store with `a, b < n` whose roots `ra = find(a)` and
`rb = find(b)` differ, `unite(a, b)` returns true and: when `rank[ra] >= rank[rb]` (ties
included) `ra` stays a root and `parent[rb] = ra`, otherwise `rb` stays a root and
`parent[ra] = rb`; every index of the two classes then resolves to the winner and every
other index to its old root; the winner's size is the sum of the two old root sizes; its
rank is one more when the two ranks were equal and unchanged otherwise; no other rank
entry and no other size entry changes. -/
theorem C13_unite_merge (s : DSU) (hs : Reachable s) (a b : Nat) (ha : a < s.n)
    (hb : b < s.n) :
    ∃ ra rb, (s.find a).1 = .ok ra ∧ (DSU.find (s.find a).2 b).1 = .ok rb ∧
      (ra ≠ rb → ∃ s3, s.unite a b = (.ok true, s3) ∧
        s3.n = s.n ∧ s3.rank_.length = s.rank_.length ∧
        s3.size_.length = s.size_.length ∧
        (rnk s rb ≤ rnk s ra → s3.parent_[rb]? = some ra ∧ s3.parent_[ra]? = some ra) ∧
        (rnk s ra < rnk s rb → s3.parent_[ra]? = some rb ∧ s3.parent_[rb]? = some rb) ∧
        (∀ y, y < s.n → (s3.find y).1 =
          if (s.find y).1 = .ok ra ∨ (s.find y).1 = .ok rb then .ok (winner s ra rb)
          else (s.find y).1) ∧
        s3.size_[winner s ra rb]? = some (siz s ra + siz s rb) ∧
        s3.rank_[winner s ra rb]? = some (if rnk s ra = rnk s rb
          then rnk s (winner s ra rb) + 1 else rnk s (winner s ra rb)) ∧
        (∀ i, i ≠ winner s ra rb →
          s3.rank_[i]? = s.rank_[i]? ∧ s3.size_[i]? = s.size_[i]?)) := by
  obtain ⟨rep, hi⟩ := hs.inv
  obtain ⟨ps1, ps2, h1, h2, _, _, _, _⟩ := find_find_spec hi a b ha hb
  refine ⟨rep a, rep b, by rw [h1], by rw [h1, h2], ?_⟩
  intro hne
  obtain ⟨ps, l2, i2, _, hu, i3, _⟩ := unite_spec_diff hi a b ha hb hne
  obtain ⟨hcase, hrk⟩ := winner_loser s (rep a) (rep b)
  have hra : rep a < ps.length := by rw [l2]; exact hi.rep_lt a ha
  have hrb : rep b < ps.length := by rw [l2]; exact hi.rep_lt b hb
  have hpa : par { s with parent_ := ps } (rep a) = rep a := i2.root_rep a
  have hpb : par { s with parent_ := ps } (rep b) = rep b := i2.root_rep b
  have hw : winner s (rep a) (rep b) < ps.length := by
    rcases hcase with ⟨e, _⟩ | ⟨e, _⟩ <;> rw [e] <;> assumption
  have hl : loser s (rep a) (rep b) < ps.length := by
    rcases hcase with ⟨_, e⟩ | ⟨_, e⟩ <;> rw [e] <;> assumption
  have hpw : par { s with parent_ := ps } (winner s (rep a) (rep b)) =
      winner s (rep a) (rep b) := by
    rcases hcase with ⟨e, _⟩ | ⟨e, _⟩ <;> rw [e] <;> assumption
  have hpl : par { s with parent_ := ps } (loser s (rep a) (rep b)) =
      loser s (rep a) (rep b) := by
    rcases hcase with ⟨_, e⟩ | ⟨_, e⟩ <;> rw [e] <;> assumption
  have hwl : winner s (rep a) (rep b) ≠ loser s (rep a) (rep b) := by
    rcases hcase with ⟨e1, e2⟩ | ⟨e1, e2⟩
    · rw [e1, e2]; exact hne
    · rw [e1, e2]; exact Ne.symm hne
  obtain ⟨ep, es, er⟩ := i2.linked_entries _ _ hw hl hpw hpl hwl
  have hlen3 := linked_length { s with parent_ := ps } (winner s (rep a) (rep b))
    (loser s (rep a) (rep b))
  have hrl3 := linked_rank_length { s with parent_ := ps } (winner s (rep a) (rep b))
    (loser s (rep a) (rep b))
  have hsl3 := linked_size_length { s with parent_ := ps } (winner s (rep a) (rep b))
    (loser s (rep a) (rep b))
  have hparw := ep (winner s (rep a) (rep b))
  rw [if_neg hwl, hpw] at hparw
  have hparl := ep (loser s (rep a) (rep b))
  rw [if_pos rfl] at hparl
  have gw := getElem?_par _ (winner s (rep a) (rep b)) (show _ < _ by rw [hlen3]; exact hw)
  have gl := getElem?_par _ (loser s (rep a) (rep b)) (show _ < _ by rw [hlen3]; exact hl)
  rw [hparw] at gw
  rw [hparl] at gl
  refine ⟨_, hu, hlen3.trans l2, hrl3, hsl3, ?_, ?_, ?_, ?_, ?_, ?_⟩
  · intro hge
    have e1 : winner s (rep a) (rep b) = rep a := by
      unfold winner; rw [if_neg (by omega)]
    have e2 : loser s (rep a) (rep b) = rep b := by
      unfold loser; rw [if_neg (by omega)]
    rw [e1, e2] at gl gw ⊢
    exact ⟨gl, gw⟩
  · intro hlt
    have e1 : winner s (rep a) (rep b) = rep b := by
      unfold winner; rw [if_pos hlt]
    have e2 : loser s (rep a) (rep b) = rep a := by
      unfold loser; rw [if_pos hlt]
    rw [e1, e2] at gl gw ⊢
    exact ⟨gl, gw⟩
  · intro y hy
    obtain ⟨q1, f1, _⟩ := find_spec hi y hy
    obtain ⟨q3, f3, _⟩ := find_spec i3 y (show y < _ by rw [hlen3, l2]; exact hy)
    rw [f1, f3]
    simp only [Outcome.ok.injEq]
    unfold relabel
    by_cases c : rep y = loser s (rep a) (rep b)
    · rw [if_pos c]
      have : rep y = rep a ∨ rep y = rep b := by
        rcases hcase with ⟨_, e⟩ | ⟨_, e⟩
        · right; rw [c, e]
        · left; rw [c, e]
      rw [if_pos this]
    · rw [if_neg c]
      by_cases d : rep y = rep a ∨ rep y = rep b
      · rw [if_pos d]
        congr 1
        rcases hcase with ⟨e1, e2⟩ | ⟨e1, e2⟩
        · rw [e2] at c
          rw [e1]
          rcases d with d | d
          · exact d
          · exact absurd d c
        · rw [e2] at c
          rw [e1]
          rcases d with d | d
          · exact absurd d c
          · exact d
      · rw [if_neg d]
  · have := es (winner s (rep a) (rep b))
    rw [if_pos rfl] at this
    rw [getElem?_siz _ _ (show _ < _ by rw [hsl3, i2.size_len]; exact hw), this]
    congr 1
    rcases hcase with ⟨e1, e2⟩ | ⟨e1, e2⟩
    · rw [e1, e2]; rfl
    · rw [e1, e2]; exact Nat.add_comm _ _
  · have := er (winner s (rep a) (rep b))
    rw [getElem?_rnk _ _ (show _ < _ by rw [hrl3, i2.rank_len]; exact hw), this]
    congr 1
    have hiff : (rnk { s with parent_ := ps } (winner s (rep a) (rep b)) =
        rnk { s with parent_ := ps } (loser s (rep a) (rep b))) ↔
        rnk s (rep a) = rnk s (rep b) := by
      rcases hcase with ⟨e1, e2⟩ | ⟨e1, e2⟩
      · rw [e1, e2]; exact Iff.rfl
      · rw [e1, e2]; exact eq_comm
    by_cases c : rnk s (rep a) = rnk s (rep b)
    · rw [if_pos ⟨rfl, hiff.2 c⟩, if_pos c]; rfl
    · rw [if_neg (fun x => c (hiff.1 x.2)), if_neg c]; rfl
  · intro i hiw
    constructor
    · apply getElem?_congr_getD _ _ i 0 hrl3
      have := er i
      rw [if_neg (fun x => hiw x.1)] at this
      exact this
    · apply getElem?_congr_getD _ _ i 0 hsl3
      have := es i
      rw [if_neg hiw] at this
      exact this

/-- C13 on two trees of equal rank: `unite(3, 1)` on parents `[0, 0, 2, 2]` makes the
root of the first argument the root of the merged component. -/
theorem C13_unite_merge_witness :
    Reachable (run (DSU.new 4) [.unite 0 1, .unite 2 3]) ∧
    ∃ ra rb, ((run (DSU.new 4) [.unite 0 1, .unite 2 3]).find 3).1 = .ok ra ∧
      (DSU.find ((run (DSU.new 4) [.unite 0 1, .unite 2 3]).find 3).2 1).1 = .ok rb ∧
      (ra ≠ rb → ∃ s3, (run (DSU.new 4) [.unite 0 1, .unite 2 3]).unite 3 1 = (.ok true, s3) ∧
        s3.n = (run (DSU.new 4) [.unite 0 1, .unite 2 3]).n ∧
        s3.rank_.length = (run (DSU.new 4) [.unite 0 1, .unite 2 3]).rank_.length ∧
        s3.size_.length = (run (DSU.new 4) [.unite 0 1, .unite 2 3]).size_.length ∧
        (rnk (run (DSU.new 4) [.unite 0 1, .unite 2 3]) rb ≤
            rnk (run (DSU.new 4) [.unite 0 1, .unite 2 3]) ra →
          s3.parent_[rb]? = some ra ∧ s3.parent_[ra]? = some ra) ∧
        (rnk (run (DSU.new 4) [.unite 0 1, .unite 2 3]) ra <
            rnk (run (DSU.new 4) [.unite 0 1, .unite 2 3]) rb →
          s3.parent_[ra]? = some rb ∧ s3.parent_[rb]? = some rb) ∧
        (∀ y, y < (run (DSU.new 4) [.unite 0 1, .unite 2 3]).n → (s3.find y).1 =
          if ((run (DSU.new 4) [.unite 0 1, .unite 2 3]).find y).1 = .ok ra ∨
              ((run (DSU.new 4) [.unite 0 1, .unite 2 3]).find y).1 = .ok rb
            then .ok (winner (run (DSU.new 4) [.unite 0 1, .unite 2 3]) ra rb)
          else ((run (DSU.new 4) [.unite 0 1, .unite 2 3]).find y).1) ∧
        s3.size_[winner (run (DSU.new 4) [.unite 0 1, .unite 2 3]) ra rb]? =
          some (siz (run (DSU.new 4) [.unite 0 1, .unite 2 3]) ra +
            siz (run (DSU.new 4) [.unite 0 1, .unite 2 3]) rb) ∧
        s3.rank_[winner (run (DSU.new 4) [.unite 0 1, .unite 2 3]) ra rb]? =
          some (if rnk (run (DSU.new 4) [.unite 0 1, .unite 2 3]) ra =
              rnk (run (DSU.new 4) [.unite 0 1, .unite 2 3]) rb
            then rnk (run (DSU.new 4) [.unite 0 1, .unite 2 3])
              (winner (run (DSU.new 4) [.unite 0 1, .unite 2 3]) ra rb) + 1
            else rnk (run (DSU.new 4) [.unite 0 1, .unite 2 3])
              (winner (run (DSU.new 4) [.unite 0 1, .unite 2 3]) ra rb)) ∧
        (∀ i, i ≠ winner (run (DSU.new 4) [.unite 0 1, .unite 2 3]) ra rb →
          s3.rank_[i]? = (run (DSU.new 4) [.unite 0 1, .unite 2 3]).rank_[i]? ∧
          s3.size_[i]? = (run (DSU.new 4) [.unite 0 1, .unite 2 3]).size_[i]?)) :=
  ⟨Reachable.call _ (.unite 2 3) (Reachable.call _ (.unite 0 1)
      (Reachable.reset DSU.empty 4 (by decide)) trivial) trivial,
    C13_unite_merge _ (Reachable.call _ (.unite 2 3) (Reachable.call _ (.unite 0 1)
      (Reachable.reset DSU.empty 4 (by decide)) trivial) trivial) 3 1 (by decide) (by decide)⟩

/-! ## Height of the forest -/

/-- Every index reaches its representative in a number of hops bounded by the rank
difference, passing only through non-roots. -/
theorem Inv.hops {s : DSU} {rep : Nat → Nat} (h : Inv s rep) :
    ∀ m x, s.parent_.length ≤ m + rnk s x →
      ∃ k, k + rnk s x ≤ rnk s (rep x) ∧ (par s)^[k] x = rep x ∧
        ∀ j, j < k → par s ((par s)^[j] x) ≠ (par s)^[j] x := by
  intro m
  induction m with
  | zero =>
    intro x hm
    have hroot : par s x = x := by
      by_contra hc
      have hx : x < s.parent_.length := by
        by_contra hge
        exact hc (par_of_ge s x (by omega))
      have := h.rnk_lt_n x hx
      omega
    refine ⟨0, by rw [h.rep_root x hroot]; omega, by rw [h.rep_root x hroot]; rfl, ?_⟩
    intro j hj; omega
  | succ m ih =>
    intro x hm
    by_cases hroot : par s x = x
    · refine ⟨0, by rw [h.rep_root x hroot]; omega, by rw [h.rep_root x hroot]; rfl, ?_⟩
      intro j hj; omega
    · have hlt := h.rank_lt x hroot
      obtain ⟨k, h1, h2, h3⟩ := ih (par s x) (by omega)
      rw [h.rep_par] at h1 h2
      refine ⟨k + 1, by omega, by rw [Function.iterate_succ_apply]; exact h2, ?_⟩
      intro j hj
      cases j with
      | zero => exact hroot
      | succ j =>
        rw [Function.iterate_succ_apply]
        exact h3 j (by omega)

theorem Inv.rank_lt_iterate {s : DSU} {rep : Nat → Nat} (h : Inv s rep) (x : Nat)
    (hroot : par s x ≠ x) : ∀ k, rnk s x < rnk s ((par s)^[k + 1] x) := by
  intro k
  induction k with
  | zero => exact h.rank_lt x hroot
  | succ k ih =>
    rw [Function.iterate_succ_apply']
    by_cases c : par s ((par s)^[k + 1] x) = (par s)^[k + 1] x
    · rw [c]; exact ih
    · exact lt_trans ih (h.rank_lt _ c)

/-- C14: in a reachable store the parent links have no cycle except the self-loops of
roots, every valid index reaches a root in fewer than `n` hops, and `find` returns: with
any recursion budget of at least `n` it yields one and the same result; `same`, `unite`
and `component_size` return as well. -/
theorem C14_forest_terminates (s : DSU) (hs : Reachable s) (x : Nat) (hx : x < s.n) :
    (∀ k, 0 < k → (par s)^[k] x = x → par s x = x) ∧
    (∃ k, k < s.n ∧ par s ((par s)^[k] x) = (par s)^[k] x) ∧
    (∃ r t, s.find x = (.ok r, t) ∧
      ∀ fuel, s.n ≤ fuel → DSU.findFuel fuel s x = (.ok r, t)) ∧
    (∃ c, (s.component_size x).1 = .ok c) ∧
    ∀ y, y < s.n → (∃ r, (s.same x y).1 = .ok r) ∧ ∃ r, (s.unite x y).1 = .ok r := by
  obtain ⟨rep, hi⟩ := hs.inv
  refine ⟨?_, ?_, ?_, ?_, ?_⟩
  · intro k hk hcyc
    by_contra hroot
    have := hi.rank_lt_iterate x hroot (k - 1)
    rw [show k - 1 + 1 = k by omega, hcyc] at this
    omega
  · obtain ⟨k, h1, h2, _⟩ := hi.hops s.parent_.length x (by omega)
    refine ⟨k, ?_, ?_⟩
    · have := hi.rnk_lt_n (rep x) (hi.rep_lt x hx)
      show k < s.parent_.length
      omega
    · rw [h2]; exact hi.root_rep x
  · obtain ⟨ps, h1, _, _⟩ := findFuel_spec hi s.parent_.length x hx (by omega)
    refine ⟨rep x, { s with parent_ := ps }, ?_, ?_⟩
    · exact findFuel_mono _ 1 s x _ _ h1 (by simp)
    · intro fuel hf
      have := findFuel_mono _ (fuel - s.parent_.length) s x _ _ h1 (by simp)
      rwa [show s.parent_.length + (fuel - s.parent_.length) = fuel from
        Nat.add_sub_cancel' hf] at this
  · obtain ⟨ps, h1, _⟩ := component_size_spec hi x hx
    exact ⟨_, by rw [h1]⟩
  · intro y hy
    obtain ⟨ps, h1, _⟩ := same_spec hi x y hx hy
    refine ⟨⟨_, by rw [h1]⟩, ?_⟩
    by_cases he : rep x = rep y
    · obtain ⟨ps, h2, _⟩ := unite_spec_same hi x y hx hy he
      exact ⟨false, by rw [h2]⟩
    · obtain ⟨ps, _, _, _, h2, _⟩ := unite_spec_diff hi x y hx hy he
      exact ⟨true, by rw [h2]⟩

/-- C14 on the store with parent array `[0, 0, 0, 2]`, at `x = 3`. -/
theorem C14_forest_terminates_witness :
    Reachable (run (DSU.new 4) [.unite 0 1, .unite 2 3, .unite 0 2]) ∧
    ∃ r t, (run (DSU.new 4) [.unite 0 1, .unite 2 3, .unite 0 2]).find 3 = (.ok r, t) ∧
      ∀ fuel, (run (DSU.new 4) [.unite 0 1, .unite 2 3, .unite 0 2]).n ≤ fuel →
        DSU.findFuel fuel (run (DSU.new 4) [.unite 0 1, .unite 2 3, .unite 0 2]) 3 =
          (.ok r, t) :=
  ⟨Reachable.call _ (.unite 0 2) (Reachable.call _ (.unite 2 3) (Reachable.call _ (.unite 0 1)
      (Reachable.reset DSU.empty 4 (by decide)) trivial) trivial) trivial,
    (C14_forest_terminates _ (Reachable.call _ (.unite 0 2) (Reachable.call _ (.unite 2 3)
      (Reachable.call _ (.unite 0 1) (Reachable.reset DSU.empty 4 (by decide)) trivial)
      trivial) trivial) 3 (by decide)).2.2.1⟩

/-- C15: on a reachable store, when `a, b < n` already share a root, `unite(a, b)`
returns false and leaves the store exactly as `find(a)` followed by `find(b)` leaves
it; rank, size and the components counter are as before the call. -/
theorem C15_unite_same_root (s : DSU) (hs : Reachable s) (a b : Nat) (ha : a < s.n)
    (hb : b < s.n) (hroot : (s.find a).1 = (s.find b).1) :
    s.unite a b = (.ok false, (DSU.find (s.find a).2 b).2) ∧
    (s.unite a b).2.rank_ = s.rank_ ∧ (s.unite a b).2.size_ = s.size_ ∧
    (s.unite a b).2.components = s.components := by
  obtain ⟨rep, hi⟩ := hs.inv
  obtain ⟨p1, h1, _⟩ := find_spec hi a ha
  obtain ⟨p2, h2, _⟩ := find_spec hi b hb
  rw [h1, h2] at hroot
  have he : rep a = rep b := by
    simp only [Outcome.ok.injEq] at hroot
    exact hroot
  obtain ⟨ps, hu, _, _, e⟩ := unite_spec_same hi a b ha hb he
  rw [hu, ← e]
  exact ⟨rfl, rfl, rfl, rfl⟩

/-- C15 on the store of `test_basic_unions` after `unite(1, 2)`. -/
theorem C15_unite_same_root_witness :
    Reachable (exec (DSU.new 6) (.unite 1 2)) ∧
    ((exec (DSU.new 6) (.unite 1 2)).find 1).1 = ((exec (DSU.new 6) (.unite 1 2)).find 2).1 ∧
    (exec (DSU.new 6) (.unite 1 2)).unite 1 2 =
      (.ok false, (DSU.find ((exec (DSU.new 6) (.unite 1 2)).find 1).2 2).2) :=
  ⟨Reachable.call _ (.unite 1 2) (Reachable.reset DSU.empty 6 (by decide)) trivial,
    by decide,
    (C15_unite_same_root _
      (Reachable.call _ (.unite 1 2) (Reachable.reset DSU.empty 6 (by decide)) trivial)
      1 2 (by decide) (by decide) (by decide)).1⟩

theorem Inv.rankBoundsHeight {s : DSU} {rep : Nat → Nat} (h : Inv s rep) :
    RankBoundsHeight s := by
  refine ⟨?_, ?_⟩
  · intro x p hx hp hne
    rw [getElem?_par s x hx] at hp
    have e : par s x = p := Option.some.inj hp
    rw [← e] at hne ⊢
    exact h.rank_lt x hne
  · intro x hx
    obtain ⟨k, h1, h2, h3⟩ := h.hops s.parent_.length x (by omega)
    obtain ⟨ps, hf, _⟩ := find_spec h x hx
    exact ⟨rep x, k, by rw [hf], h2, h.root_rep x, h3, by omega⟩

/-- C17: in a reachable store the rank grows strictly along every parent link of a
non-root, so every valid index reaches its root `r` in at most `rank[r]` hops; `find`
changes no rank and the bound holds in the store it leaves. -/
theorem C17_rank_bounds_height (s : DSU) (hs : Reachable s) :
    RankBoundsHeight s ∧
    ∀ x, x < s.n → (s.find x).2.rank_ = s.rank_ ∧ RankBoundsHeight (s.find x).2 := by
  obtain ⟨rep, hi⟩ := hs.inv
  refine ⟨hi.rankBoundsHeight, ?_⟩
  intro x hx
  obtain ⟨ps, h1, _, _, i1⟩ := find_spec hi x hx
  rw [h1]
  exact ⟨rfl, i1.rankBoundsHeight⟩

/-- C17 on the store with parent array `[0, 0, 0, 2]`. -/
theorem C17_rank_bounds_height_witness :
    Reachable (run (DSU.new 4) [.unite 0 1, .unite 2 3, .unite 0 2]) ∧
    RankBoundsHeight (run (DSU.new 4) [.unite 0 1, .unite 2 3, .unite 0 2]) :=
  ⟨Reachable.call _ (.unite 0 2) (Reachable.call _ (.unite 2 3) (Reachable.call _ (.unite 0 1)
      (Reachable.reset DSU.empty 4 (by decide)) trivial) trivial) trivial,
    (C17_rank_bounds_height _ (Reachable.call _ (.unite 0 2) (Reachable.call _ (.unite 2 3)
      (Reachable.call _ (.unite 0 1) (Reachable.reset DSU.empty 4 (by decide)) trivial)
      trivial) trivial)).1⟩

/-- C18: in a reachable store every root `r` has `size[r] >= 2 ^ rank[r]` and
`size[r] <= n`, so every rank is at most `log2 n` and below 64; when `unite` links two
distinct roots, the size sum is at most `n` and is not reduced modulo `2 ^ 64`, and the
rank increment on a tie stays at most 64 and is not reduced modulo `2 ^ 8`. -/
theorem C18_rank_no_overflow (s : DSU) (hs : Reachable s) :
    (∀ r, r < s.n → s.parent_[r]? = some r → 2 ^ rnk s r ≤ siz s r ∧ siz s r ≤ s.n) ∧
    (∀ i, i < s.n → 2 ^ rnk s i ≤ s.n ∧ rnk s i ≤ Nat.log 2 s.n ∧ rnk s i < 64) ∧
    (∀ a b ra rb, a < s.n → b < s.n → (s.find a).1 = .ok ra → (s.find b).1 = .ok rb →
      ra ≠ rb →
      siz s ra + siz s rb ≤ s.n ∧
      (siz s ra + siz s rb) % SIZE_MOD = siz s ra + siz s rb ∧
      (rnk s ra = rnk s rb → rnk s (winner s ra rb) + 1 ≤ 64 ∧
        (rnk s (winner s ra rb) + 1) % RANK_MOD = rnk s (winner s ra rb) + 1)) := by
  obtain ⟨rep, hi⟩ := hs.inv
  have hn := hi.n_lt
  refine ⟨?_, ?_, ?_⟩
  · intro r hr hroot
    rw [getElem?_par s r hr] at hroot
    have hp : par s r = r := Option.some.inj hroot
    have h1 := hi.rank_size r hr
    rw [hi.rep_root r hp] at h1
    exact ⟨h1, hi.siz_root_le r hr hp⟩
  · intro i hi1
    have h1 := hi.two_pow_rnk_le i hi1
    exact ⟨h1, Nat.le_log_of_pow_le (by norm_num) h1, hi.rnk_lt_64 i hi1⟩
  · intro a b ra rb ha hb hfa hfb hne
    obtain ⟨p1, h1, _⟩ := find_spec hi a ha
    obtain ⟨p2, h2, _⟩ := find_spec hi b hb
    rw [h1] at hfa
    rw [h2] at hfb
    have ea : rep a = ra := by
      simp only [Outcome.ok.injEq] at hfa; exact hfa
    have eb : rep b = rb := by
      simp only [Outcome.ok.injEq] at hfb; exact hfb
    have hra : ra < s.parent_.length := by rw [← ea]; exact hi.rep_lt a ha
    have hrb : rb < s.parent_.length := by rw [← eb]; exact hi.rep_lt b hb
    have pra : par s ra = ra := by rw [← ea]; exact hi.root_rep a
    have prb : par s rb = rb := by rw [← eb]; exact hi.root_rep b
    have hsum := hi.siz_add_le ra rb hra hrb pra prb hne
    refine ⟨hsum, Nat.mod_eq_of_lt (lt_of_le_of_lt hsum hn), ?_⟩
    intro he
    have hw : winner s ra rb = ra := by
      unfold winner; rw [if_neg (by omega)]
    rw [hw]
    have h3 := hi.two_pow_succ_le ra rb hra hrb pra prb he
    have h4 := lt_64_of_two_pow_lt (rnk s ra + 1) (lt_of_le_of_lt (le_trans h3 hsum) hn)
    refine ⟨by omega, Nat.mod_eq_of_lt ?_⟩
    unfold RANK_MOD
    omega

/-- C18 on the store with parent array `[0, 0, 0, 2]`: the root `0` has rank 2 and
size 4. -/
theorem C18_rank_no_overflow_witness :
    Reachable (run (DSU.new 4) [.unite 0 1, .unite 2 3, .unite 0 2]) ∧
    2 ^ rnk (run (DSU.new 4) [.unite 0 1, .unite 2 3, .unite 0 2]) 0 ≤
      siz (run (DSU.new 4) [.unite 0 1, .unite 2 3, .unite 0 2]) 0 ∧
    siz (run (DSU.new 4) [.unite 0 1, .unite 2 3, .unite 0 2]) 0 ≤
      (run (DSU.new 4) [.unite 0 1, .unite 2 3, .unite 0 2]).n :=
  ⟨Reachable.call _ (.unite 0 2) (Reachable.call _ (.unite 2 3) (Reachable.call _ (.unite 0 1)
      (Reachable.reset DSU.empty 4 (by decide)) trivial) trivial) trivial,
    (C18_rank_no_overflow _ (Reachable.call _ (.unite 0 2) (Reachable.call _ (.unite 2 3)
      (Reachable.call _ (.unite 0 1) (Reachable.reset DSU.empty 4 (by decide)) trivial)
      trivial) trivial)).1 0 (by decide) (by decide)⟩

/-! ## The iterative two-pass `find` -/

theorem rootPass_spec {s : DSU} {rep : Nat → Nat} (h : Inv s rep) :
    ∀ k x, x < s.parent_.length → s.parent_.length ≤ k + rnk s x →
      rootPass s.parent_ k x = some (rep x) := by
  intro k
  induction k with
  | zero =>
    intro x hx hk
    have := h.rnk_lt_n x hx
    omega
  | succ k ih =>
    intro x hx hk
    by_cases hr : par s x = x
    · simp only [rootPass, getElem?_par s x hx, hr, if_true, h.rep_root x hr]
    · have hlt := h.rank_lt x hr
      have := ih (par s x) (h.par_lt x hx) (by omega)
      rw [h.rep_par] at this
      simp only [rootPass, getElem?_par s x hx, hr, if_false, this]

theorem walk_rank {s : DSU} {rep : Nat → Nat} (h : Inv s rep) :
    ∀ k y i, i ∈ walk s k y → rnk s y ≤ rnk s i := by
  intro k
  induction k with
  | zero => intro y i hi; simp [walk] at hi
  | succ k ih =>
    intro y i hi
    simp only [walk] at hi
    split at hi
    · rw [List.mem_singleton.1 hi]
    · rename_i hr
      rcases List.mem_cons.1 hi with e | e
      · rw [e]
      · have h1 := ih _ i e
        have h2 := h.rank_lt y hr
        omega

theorem compressPass_spec {s : DSU} {rep : Nat → Nat} (h : Inv s rep) :
    ∀ k x (p : List Nat), x < s.parent_.length → s.parent_.length ≤ k + rnk s x →
      p.length = s.parent_.length →
      (∀ i, i ∈ walk s k x → par { s with parent_ := p } i = par s i) →
      (compressPass (rep x) k p x).length = s.parent_.length ∧
      ∀ i, par { s with parent_ := compressPass (rep x) k p x } i =
        if i ∈ walk s k x then rep x else par { s with parent_ := p } i := by
  intro k
  induction k with
  | zero =>
    intro x p hx hk
    have := h.rnk_lt_n x hx
    omega
  | succ k ih =>
    intro x p hx hk hp hag
    by_cases hr : par s x = x
    · have hw : walk s (k + 1) x = [x] := by
        simp only [walk]; rw [if_pos hr]
      have hrep := h.rep_root x hr
      have hc : compressPass (rep x) (k + 1) p x = p := by
        simp only [compressPass, hrep, if_true]
      rw [hc, hw]
      refine ⟨hp, ?_⟩
      intro i
      by_cases hi : i = x
      · rw [if_pos (by rw [hi]; exact List.mem_singleton_self x), hi,
          hag x (by rw [hw]; exact List.mem_singleton_self x), hr, hrep]
      · rw [if_neg (by simpa using hi)]
    · have hw : walk s (k + 1) x = x :: walk s k (par s x) := by
        simp only [walk]; rw [if_neg hr]
      have hne : x ≠ rep x := by
        intro e
        apply hr
        have := h.root_rep x
        rwa [← e] at this
      have hlt := h.rank_lt x hr
      have hget : p[x]? = some (par s x) := by
        have := getElem?_par { s with parent_ := p } x (show x < p.length by omega)
        rw [hag x (by rw [hw]; exact List.mem_cons_self _ _)] at this
        exact this
      have hc : compressPass (rep x) (k + 1) p x =
          compressPass (rep x) k (p.set x (rep x)) (par s x) := by
        simp only [compressPass, hne, if_false, hget]
      have hag2 : ∀ i, i ∈ walk s k (par s x) →
          par { s with parent_ := p.set x (rep x) } i = par s i := by
        intro i hi
        have hrk := walk_rank h k (par s x) i hi
        have hix : i ≠ x := by
          intro e; rw [e] at hrk; omega
        rw [par_set s p x (rep x) i (by omega), if_neg hix]
        exact hag i (by rw [hw]; exact List.mem_cons_of_mem _ hi)
      have := ih (par s x) (p.set x (rep x)) (h.par_lt x hx) (by omega)
        (by simp [hp]) hag2
      rw [h.rep_par] at this
      obtain ⟨hl, hres⟩ := this
      rw [hc, hw]
      refine ⟨hl, ?_⟩
      intro i
      rw [hres i, par_set s p x (rep x) i (by omega)]
      by_cases hi : i = x
      · have hmem : i ∈ x :: walk s k (par s x) := by rw [hi]; exact List.mem_cons_self _ _
        rw [if_pos hi, if_pos hmem]
        by_cases hm : i ∈ walk s k (par s x)
        · rw [if_pos hm]
        · rw [if_neg hm]
      · rw [if_neg hi]
        by_cases hm : i ∈ walk s k (par s x)
        · rw [if_pos hm, if_pos (List.mem_cons_of_mem _ hm)]
        · rw [if_neg hm, if_neg (by
            intro c
            rcases List.mem_cons.1 c with e | e
            · exact hi e
            · exact hm e)]

/-- C16: on a reachable store with `x < n` the recursive `find` of the code and the
iterative two-pass algorithm return the same root and leave the same store, in
particular the same parent array; rank, size and the components counter are untouched
by both. -/
theorem C16_find_two_pass (s : DSU) (hs : Reachable s) (x : Nat) (hx : x < s.n) :
    s.find x = find_two_pass s x ∧
    ∃ r t, s.find x = (.ok r, t) ∧ t.rank_ = s.rank_ ∧ t.size_ = s.size_ ∧
      t.components = s.components := by
  obtain ⟨rep, hi⟩ := hs.inv
  obtain ⟨ps, h1, l1, hps, _⟩ := find_spec hi x hx
  refine ⟨?_, rep x, _, h1, rfl, rfl, rfl⟩
  have hroot := rootPass_spec hi (s.parent_.length + 1) x hx (by omega)
  obtain ⟨l2, hcs⟩ := compressPass_spec hi (s.parent_.length + 1) x s.parent_ hx (by omega)
    rfl (fun _ _ => rfl)
  have hrange : s.require_in_range x = .ok () := by
    have : ¬ (x ≥ s.parent_.length) := by
      have : x < s.parent_.length := hx
      omega
    simp [DSU.require_in_range, this]
  have hlist : ps = compressPass (rep x) (s.parent_.length + 1) s.parent_ x := by
    apply List.ext_getElem?
    intro i
    apply getElem?_congr_getD _ _ i i (by rw [l1, l2])
    have e1 := hps i
    have e2 := hcs i
    simp only [par] at e1 e2
    rw [e1, e2]
  rw [h1]
  simp only [find_two_pass, hrange, hroot, hlist]

/-- C16 on the store with parent array `[0, 0, 0, 2]`, at `x = 3`. -/
theorem C16_find_two_pass_witness :
    Reachable (run (DSU.new 4) [.unite 0 1, .unite 2 3, .unite 0 2]) ∧
    (run (DSU.new 4) [.unite 0 1, .unite 2 3, .unite 0 2]).find 3 =
      find_two_pass (run (DSU.new 4) [.unite 0 1, .unite 2 3, .unite 0 2]) 3 :=
  ⟨Reachable.call _ (.unite 0 2) (Reachable.call _ (.unite 2 3) (Reachable.call _ (.unite 0 1)
      (Reachable.reset DSU.empty 4 (by decide)) trivial) trivial) trivial,
    (C16_find_two_pass _ (Reachable.call _ (.unite 0 2) (Reachable.call _ (.unite 2 3)
      (Reachable.call _ (.unite 0 1) (Reachable.reset DSU.empty 4 (by decide)) trivial)
      trivial) trivial) 3 (by decide)).1⟩

/-! ## Two consecutive compressions -/

theorem walk_rep {s : DSU} {rep : Nat → Nat} (h : Inv s rep) :
    ∀ k y i, i ∈ walk s k y → rep i = rep y := by
  intro k
  induction k with
  | zero => intro y i hi; simp [walk] at hi
  | succ k ih =>
    intro y i hi
    simp only [walk] at hi
    split at hi
    · rw [List.mem_singleton.1 hi]
    · rcases List.mem_cons.1 hi with e | e
      · rw [e]
      · rw [ih _ i e, h.rep_par]

theorem iter_of_mem_walk (s : DSU) :
    ∀ k x i, i ∈ walk s k x → ∃ j, (par s)^[j] x = i := by
  intro k
  induction k with
  | zero => intro x i hi; simp [walk] at hi
  | succ k ih =>
    intro x i hi
    simp only [walk] at hi
    split at hi
    · exact ⟨0, (List.mem_singleton.1 hi).symm⟩
    · rcases List.mem_cons.1 hi with e | e
      · exact ⟨0, e.symm⟩
      · obtain ⟨j, hj⟩ := ih _ i e
        exact ⟨j + 1, by rw [Function.iterate_succ_apply]; exact hj⟩

theorem mem_walk_of_iter {s : DSU} {rep : Nat → Nat} (h : Inv s rep) :
    ∀ k x, x < s.parent_.length → s.parent_.length ≤ k + rnk s x →
      ∀ j, (par s)^[j] x ∈ walk s k x := by
  intro k
  induction k with
  | zero =>
    intro x hx hk
    have := h.rnk_lt_n x hx
    omega
  | succ k ih =>
    intro x hx hk j
    by_cases hr : par s x = x
    · have hw : walk s (k + 1) x = [x] := by
        simp only [walk]; rw [if_pos hr]
      rw [hw, Function.iterate_fixed hr j]
      exact List.mem_singleton_self x
    · have hw : walk s (k + 1) x = x :: walk s k (par s x) := by
        simp only [walk]; rw [if_neg hr]
      have hlt := h.rank_lt x hr
      rw [hw]
      cases j with
      | zero => exact List.mem_cons_self _ _
      | succ j =>
        rw [Function.iterate_succ_apply]
        exact List.mem_cons_of_mem _ (ih (par s x) (h.par_lt x hx) (by omega) j)

theorem mem_walk_iff {s : DSU} {rep : Nat → Nat} (h : Inv s rep) (x i : Nat)
    (hx : x < s.parent_.length) :
    i ∈ walk s (s.parent_.length + 1) x ↔ ∃ j, (par s)^[j] x = i := by
  constructor
  · exact iter_of_mem_walk s _ x i
  · rintro ⟨j, hj⟩
    rw [← hj]
    exact mem_walk_of_iter h _ x hx (by omega) j

theorem Inv.rep_iter {s : DSU} {rep : Nat → Nat} (h : Inv s rep) (x : Nat) :
    ∀ j, rep ((par s)^[j] x) = rep x := by
  intro j
  induction j with
  | zero => rfl
  | succ j ih => rw [Function.iterate_succ_apply', h.rep_par, ih]

/-- Ancestors after a compression are ancestors before it. -/
theorem anc_of_anc_compressed {s : DSU} {rep : Nat → Nat} (h : Inv s rep) (ps : List Nat)
    (hps : ∀ y, par { s with parent_ := ps } y = par s y ∨
      par { s with parent_ := ps } y = rep y) (b : Nat) :
    ∀ j, ∃ j1, (par s)^[j1] b = (par { s with parent_ := ps })^[j] b := by
  intro j
  induction j with
  | zero => exact ⟨0, rfl⟩
  | succ j ih =>
    obtain ⟨j1, e⟩ := ih
    rw [Function.iterate_succ_apply']
    rcases hps ((par { s with parent_ := ps })^[j] b) with c | c
    · rw [c, ← e]
      exact ⟨j1 + 1, Function.iterate_succ_apply' _ _ _⟩
    · rw [c, ← e, h.rep_iter b j1]
      obtain ⟨k, _, hk, _⟩ := h.hops s.parent_.length b (by omega)
      exact ⟨k, hk⟩

/-- An ancestor of `b` is still an ancestor of `b` after the path of `a` was
compressed, unless it is an ancestor of `a`. -/
theorem anc_compressed_or {s : DSU} (ps : List Nat) (a b : Nat)
    (hps : ∀ y, ¬ (∃ j, (par s)^[j] a = y) → par { s with parent_ := ps } y = par s y) :
    ∀ j, (∃ j1, (par { s with parent_ := ps })^[j1] b = (par s)^[j] b) ∨
      ∃ j1, (par s)^[j1] a = (par s)^[j] b := by
  intro j
  induction j with
  | zero => exact Or.inl ⟨0, rfl⟩
  | succ j ih =>
    rw [Function.iterate_succ_apply']
    by_cases c : ∃ j1, (par s)^[j1] a = (par s)^[j] b
    · obtain ⟨j1, e⟩ := c
      exact Or.inr ⟨j1 + 1, by rw [Function.iterate_succ_apply', e]⟩
    · rcases ih with ⟨j1, e⟩ | c2
      · left
        refine ⟨j1 + 1, ?_⟩
        rw [Function.iterate_succ_apply', e, hps _ c]
      · exact absurd c2 c

/-- The parent array after `find(a)` followed by `find(b)`: the ancestors of `a` and of
`b` point at their representatives, all other links are unchanged. -/
theorem find_find_par {s : DSU} {rep : Nat → Nat} (h : Inv s rep) (a b : Nat)
    (ha : a < s.parent_.length) (hb : b < s.parent_.length) :
    ∃ ps2, DSU.find (s.find a).2 b = (.ok (rep b), { s with parent_ := ps2 }) ∧
      (s.find a).1 = .ok (rep a) ∧ ps2.length = s.parent_.length ∧
      ∀ i, (((∃ j, (par s)^[j] a = i) ∨ (∃ j, (par s)^[j] b = i)) →
          par { s with parent_ := ps2 } i = rep i) ∧
        (¬ ((∃ j, (par s)^[j] a = i) ∨ (∃ j, (par s)^[j] b = i)) →
          par { s with parent_ := ps2 } i = par s i) := by
  obtain ⟨ps1, h1, l1, c1, i1⟩ := find_spec h a ha
  have hb1 : b < ps1.length := by rw [l1]; exact hb
  obtain ⟨ps2, h2, l2, c2, _⟩ := find_spec i1 b hb1
  have wa : ∀ i, i ∈ walk s (s.parent_.length + 1) a ↔ ∃ j, (par s)^[j] a = i :=
    fun i => mem_walk_iff h a i ha
  have wb : ∀ i, i ∈ walk { s with parent_ := ps1 } (ps1.length + 1) b ↔
      ∃ j, (par { s with parent_ := ps1 })^[j] b = i :=
    fun i => mem_walk_iff i1 b i hb1
  have hor : ∀ y, par { s with parent_ := ps1 } y = par s y ∨
      par { s with parent_ := ps1 } y = rep y := by
    intro y
    rw [c1 y]
    by_cases m : y ∈ walk s (s.parent_.length + 1) a
    · right; rw [if_pos m, walk_rep h _ _ _ m]
    · left; rw [if_neg m]
  have hkeep : ∀ y, ¬ (∃ j, (par s)^[j] a = y) →
      par { s with parent_ := ps1 } y = par s y := by
    intro y hy
    rw [c1 y, if_neg (fun m => hy ((wa y).1 m))]
  refine ⟨ps2, by rw [h1]; exact h2, by rw [h1], l2.trans l1, ?_⟩
  intro i
  have e2 := c2 i
  change par { s with parent_ := ps2 } i = _ at e2
  constructor
  · intro hanc
    by_cases m : i ∈ walk { s with parent_ := ps1 } (ps1.length + 1) b
    · rw [e2, if_pos m, walk_rep i1 _ _ _ m]
    · rw [e2, if_neg m, c1 i]
      by_cases ma : i ∈ walk s (s.parent_.length + 1) a
      · rw [if_pos ma, walk_rep h _ _ _ ma]
      · exfalso
        rcases hanc with c | ⟨j, hj⟩
        · exact ma ((wa i).2 c)
        · rcases anc_compressed_or ps1 a b hkeep j with c | c
          · rw [hj] at c
            exact m ((wb i).2 c)
          · rw [hj] at c
            exact ma ((wa i).2 c)
  · intro hanc
    have m : i ∉ walk { s with parent_ := ps1 } (ps1.length + 1) b := by
      intro m
      obtain ⟨j, hj⟩ := (wb i).1 m
      obtain ⟨j1, e⟩ := anc_of_anc_compressed h ps1 hor b j
      exact hanc (Or.inr ⟨j1, e.trans hj⟩)
    rw [e2, if_neg m]
    exact hkeep i (fun c => hanc (Or.inl c))

/-- C19: on a reachable store with `a, b < n`, `find(a)` followed by `find(b)` and
`find(b)` followed by `find(a)` return the same two roots and leave exactly the same
store; hence `same(a, b)` has the same result and the same effect whichever operand of
`find(a) == find(b)` is evaluated first. -/
theorem C19_finds_commute (s : DSU) (hs : Reachable s) (a b : Nat) (ha : a < s.n)
    (hb : b < s.n) :
    ∃ ra rb t, (s.find a).1 = .ok ra ∧ DSU.find (s.find a).2 b = (.ok rb, t) ∧
      (s.find b).1 = .ok rb ∧ DSU.find (s.find b).2 a = (.ok ra, t) ∧
      s.same a b = (.ok (decide (ra = rb)), t) ∧ s.same_rtl a b = s.same a b := by
  obtain ⟨rep, hi⟩ := hs.inv
  obtain ⟨ps, f1, g1, l1, c1⟩ := find_find_par hi a b ha hb
  obtain ⟨qs, f2, g2, l2, c2⟩ := find_find_par hi b a hb ha
  have hlist : qs = ps := by
    apply List.ext_getElem?
    intro i
    apply getElem?_congr_getD _ _ i i (by rw [l1, l2])
    show par { s with parent_ := qs } i = par { s with parent_ := ps } i
    by_cases c : (∃ j, (par s)^[j] a = i) ∨ (∃ j, (par s)^[j] b = i)
    · rw [(c1 i).1 c, (c2 i).1 (Or.symm c)]
    · rw [(c1 i).2 c, (c2 i).2 (fun d => c (Or.symm d))]
  rw [hlist] at f2
  have hsame : s.same a b = (.ok (decide (rep a = rep b)), { s with parent_ := ps }) := by
    cases hfa : s.find a with
    | mk o1 s1 =>
      rw [hfa] at g1 f1
      simp only at g1 f1
      simp only [DSU.same, hfa, g1, f1]
  have hrtl : s.same_rtl a b =
      (.ok (decide (rep a = rep b)), { s with parent_ := ps }) := by
    cases hfb : s.find b with
    | mk o1 s1 =>
      rw [hfb] at g2 f2
      simp only at g2 f2
      simp only [DSU.same_rtl, hfb, g2, f2]
  exact ⟨rep a, rep b, _, g1, f1, g2, f2, hsame, by rw [hrtl, hsame]⟩

/-- C19 on the store with parent array `[0, 0, 0, 2]`, at `a = 3`, `b = 1`. -/
theorem C19_finds_commute_witness :
    Reachable (run (DSU.new 4) [.unite 0 1, .unite 2 3, .unite 0 2]) ∧
    ∃ ra rb t, ((run (DSU.new 4) [.unite 0 1, .unite 2 3, .unite 0 2]).find 3).1 = .ok ra ∧
      DSU.find ((run (DSU.new 4) [.unite 0 1, .unite 2 3, .unite 0 2]).find 3).2 1 =
        (.ok rb, t) ∧
      ((run (DSU.new 4) [.unite 0 1, .unite 2 3, .unite 0 2]).find 1).1 = .ok rb ∧
      DSU.find ((run (DSU.new 4) [.unite 0 1, .unite 2 3, .unite 0 2]).find 1).2 3 =
        (.ok ra, t) ∧
      (run (DSU.new 4) [.unite 0 1, .unite 2 3, .unite 0 2]).same 3 1 =
        (.ok (decide (ra = rb)), t) ∧
      (run (DSU.new 4) [.unite 0 1, .unite 2 3, .unite 0 2]).same_rtl 3 1 =
        (run (DSU.new 4) [.unite 0 1, .unite 2 3, .unite 0 2]).same 3 1 :=
  ⟨Reachable.call _ (.unite 0 2) (Reachable.call _ (.unite 2 3) (Reachable.call _ (.unite 0 1)
      (Reachable.reset DSU.empty 4 (by decide)) trivial) trivial) trivial,
    C19_finds_commute _ (Reachable.call _ (.unite 0 2) (Reachable.call _ (.unite 2 3)
      (Reachable.call _ (.unite 0 1) (Reachable.reset DSU.empty 4 (by decide)) trivial)
      trivial) trivial) 3 1 (by decide) (by decide)⟩

/-- C20: in a reachable store the parent, rank and size arrays all have length `n` and
every parent entry is below `n`; no call, whatever its arguments, performs an unchecked
access outside a vector; with arguments below `n` the roots found are below `n`, every
entry of rank and size read at them exists, and the linking step of `unite` is
defined. -/
theorem C20_index_safety (s : DSU) (hs : Reachable s) :
    s.parent_.length = s.n ∧ s.rank_.length = s.n ∧ s.size_.length = s.n ∧
    (∀ i, i < s.n → ∃ p, s.parent_[i]? = some p ∧ p < s.n) ∧
    (∀ x, (s.find x).1 ≠ .fail .out_of_bounds ∧
      (s.component_size x).1 ≠ .fail .out_of_bounds ∧
      s.is_root x ≠ .fail .out_of_bounds) ∧
    (∀ a b, (s.same a b).1 ≠ .fail .out_of_bounds ∧
      (s.unite a b).1 ≠ .fail .out_of_bounds) ∧
    (∀ a b, a < s.n → b < s.n → ∃ ra rb s2, (s.find a).1 = .ok ra ∧
      DSU.find (s.find a).2 b = (.ok rb, s2) ∧ ra < s.n ∧ rb < s.n ∧
      s2.parent_.length = s.n ∧ s2.rank_.length = s.n ∧ s2.size_.length = s.n ∧
      (∃ ka kb za zb, s2.rank_[ra]? = some ka ∧ s2.rank_[rb]? = some kb ∧
        s2.size_[ra]? = some za ∧ s2.size_[rb]? = some zb) ∧
      ∃ s3, s2.link ra rb = some s3) := by
  obtain ⟨rep, hi⟩ := hs.inv
  refine ⟨rfl, hi.rank_len, hi.size_len, ?_, ?_, ?_, ?_⟩
  · intro i hi1
    exact ⟨par s i, getElem?_par s i hi1, hi.par_lt i hi1⟩
  · intro x
    by_cases hx : x < s.parent_.length
    · obtain ⟨ps1, h1, _⟩ := find_spec hi x hx
      obtain ⟨ps2, h2, _⟩ := component_size_spec hi x hx
      rw [h1, h2, is_root_spec s x hx]
      simp
    · rw [find_out_of_range s x (by omega), component_size_fail s x (by omega),
        is_root_fail s x (by omega)]
      simp
  · intro a b
    by_cases ha : a < s.parent_.length
    · by_cases hb : b < s.parent_.length
      · obtain ⟨ps1, h1, _⟩ := same_spec hi a b ha hb
        have hu : ∃ r, (s.unite a b).1 = .ok r := by
          by_cases he : rep a = rep b
          · obtain ⟨ps, h2, _⟩ := unite_spec_same hi a b ha hb he
            exact ⟨false, by rw [h2]⟩
          · obtain ⟨ps, _, _, _, h2, _⟩ := unite_spec_diff hi a b ha hb he
            exact ⟨true, by rw [h2]⟩
        obtain ⟨r, hr⟩ := hu
        rw [h1, hr]
        simp
      · rw [same_fail_right hi a b ha (by omega), unite_fail_right hi a b ha (by omega)]
        simp
    · rw [same_fail_left s a b (by omega), unite_fail_left s a b (by omega)]
      simp
  · intro a b ha hb
    obtain ⟨ps1, ps2, h1, h2, _, l2, _, i2⟩ := find_find_spec hi a b ha hb
    have hra : rep a < ps2.length := by rw [l2]; exact hi.rep_lt a ha
    have hrb : rep b < ps2.length := by rw [l2]; exact hi.rep_lt b hb
    refine ⟨rep a, rep b, { s with parent_ := ps2 }, by rw [h1], by rw [h1]; exact h2,
      hi.rep_lt a ha, hi.rep_lt b hb, l2, hi.rank_len, hi.size_len, ?_, ?_⟩
    · exact ⟨_, _, _, _,
        getElem?_rnk { s with parent_ := ps2 } (rep a) (by rw [i2.rank_len]; exact hra),
        getElem?_rnk { s with parent_ := ps2 } (rep b) (by rw [i2.rank_len]; exact hrb),
        getElem?_siz { s with parent_ := ps2 } (rep a) (by rw [i2.size_len]; exact hra),
        getElem?_siz { s with parent_ := ps2 } (rep b) (by rw [i2.size_len]; exact hrb)⟩
    · exact ⟨_, link_eq { s with parent_ := ps2 } (rep a) (rep b) hra hrb i2.rank_len
        i2.size_len⟩

/-- C20 on the store with parent array `[0, 0, 0, 2]`. -/
theorem C20_index_safety_witness :
    Reachable (run (DSU.new 4) [.unite 0 1, .unite 2 3, .unite 0 2]) ∧
    (run (DSU.new 4) [.unite 0 1, .unite 2 3, .unite 0 2]).rank_.length =
      (run (DSU.new 4) [.unite 0 1, .unite 2 3, .unite 0 2]).n ∧
    (run (DSU.new 4) [.unite 0 1, .unite 2 3, .unite 0 2]).size_.length =
      (run (DSU.new 4) [.unite 0 1, .unite 2 3, .unite 0 2]).n :=
  ⟨Reachable.call _ (.unite 0 2) (Reachable.call _ (.unite 2 3) (Reachable.call _ (.unite 0 1)
      (Reachable.reset DSU.empty 4 (by decide)) trivial) trivial) trivial,
    (C20_index_safety _ (Reachable.call _ (.unite 0 2) (Reachable.call _ (.unite 2 3)
      (Reachable.call _ (.unite 0 1) (Reachable.reset DSU.empty 4 (by decide)) trivial)
      trivial) trivial)).2.1,
    (C20_index_safety _ (Reachable.call _ (.unite 0 2) (Reachable.call _ (.unite 2 3)
      (Reachable.call _ (.unite 0 1) (Reachable.reset DSU.empty 4 (by decide)) trivial)
      trivial) trivial)).2.2.1⟩

/-! ## The assertions of `tests/test_basic.cpp` -/

/-- Evaluation of `test_basic_unions` up to the second `unite(1, 2)`. -/
theorem test_basic_unions_prefix :
    (DSU.new 6).n = 6 ∧ (DSU.new 6).components = 6 ∧
    ((DSU.new 6).same 1 2).1 = .ok false ∧
    ((DSU.new 6).unite 1 2).1 = .ok true ∧
    ((run (DSU.new 6) [.unite 1 2]).same 1 2).1 = .ok true ∧
    (run (DSU.new 6) [.unite 1 2]).components = 5 ∧
    ((run (DSU.new 6) [.unite 1 2]).unite 1 2).1 = .ok false ∧
    (run (DSU.new 6) [.unite 1 2, .unite 1 2]).components = 5 := by
  decide

/-- Evaluation of `test_component_sizes`. -/
theorem test_component_sizes_eval :
    ((run (DSU.new 7) [.unite 0 1, .unite 1 2, .unite 3 4, .unite 5 6]).component_size 0).1
      = .ok 3 ∧
    ((run (DSU.new 7) [.unite 0 1, .unite 1 2, .unite 3 4, .unite 5 6]).component_size 3).1
      = .ok 2 ∧
    ((run (DSU.new 7) [.unite 0 1, .unite 1 2, .unite 3 4, .unite 5 6,
      .unite 2 4]).component_size 0).1 = .ok 5 ∧
    (run (DSU.new 7) [.unite 0 1, .unite 1 2, .unite 3 4, .unite 5 6,
      .unite 2 4]).components = 2 := by
  decide

end dsu
